import Mathlib

/-!
# Verification of the permutation core (`permutation.py`)

This file is a shallow embedding, in Lean 4, of the permutation library of the
repository.  The executable implementation of the library is `permutation.py`
(`perm.py` is an earlier, non-importable iteration of the same module: it uses
`import _collections` / `_collections.abc` and `_random.shuffle`, neither of
which exists, so the module fails at import time; its semantics where it
matters is subsumed by `permutation.py`, which every claim also cites).

Modelling conventions:
* Domain elements are natural numbers (the library is generic over hashable
  values; all claims use small integers).
* A Python `dict` is an association list `List (Nat × Nat)` with distinct keys,
  built by `pyDict` with last-write-wins update semantics preserving insertion
  order (CPython semantics).
* CPython's `set.pop` order is unspecified; the decomposition loop in
  `Permutation.__new__` pops from `set(self.keys())`.  We determinise this by
  popping the minimum element (for a set of small ints CPython iterates in
  ascending order).  The stored value only depends on this through the order
  of the `_orbits` tuple, which the source then sorts with `orbits.sort(key=min)`
  anyway.
* A raising `raise ValueError(...)` is modelled by `Except PermError`.
* Loops whose termination is a consequence of set cardinality are written with
  an explicit fuel argument; fuel at every call site is one more than the size
  of the work list, which is proved sufficient (the fuel-exhaustion branch is
  unreachable).
-/

/-- Python `d[k]` on an association list: find the (unique, by `pyDict`
construction) binding of `k`. -/
def lookup (m : List (Nat × Nat)) (k : Nat) : Option Nat :=
  (m.find? (fun kv => decide (kv.1 = k))).map Prod.snd

/-- Python `d[k] = v` on a dict: overwrite in place if the key is present
(keeping its position, as CPython dicts do), else append. -/
def dictInsert (m : List (Nat × Nat)) (k v : Nat) : List (Nat × Nat) :=
  if m.any (fun kv => decide (kv.1 = k)) then
    m.map (fun kv => if kv.1 = k then (k, v) else kv)
  else m ++ [(k, v)]

/-- Python `dict(pairs)`: fold the pairs into an (initially empty) dict,
later bindings overwriting earlier ones. -/
def pyDict (l : List (Nat × Nat)) : List (Nat × Nat) :=
  l.foldl (fun m kv => dictInsert m kv.1 kv.2) []

/-- `Permutation.__getitem__` / `get` semantics over a raw dict: the stored
image if present, the key itself otherwise (total function). -/
def applyD (m : List (Nat × Nat)) (k : Nat) : Nat :=
  (lookup m k).getD k

/-! ## `_gcd` / `_lcm` (the integer utilities of `permutation.py`)

`_gcd` runs `while val > 0: val, gcd = gcd % val, val` over each argument.
The inner while-loop is `pyGcdAux` with fuel (the first argument strictly
decreases, so fuel `x + 1` always suffices). -/

def pyGcdAux : Nat → Nat → Nat → Nat
  | 0, _, g => g
  | fuel + 1, x, g => if 0 < x then pyGcdAux fuel (g % x) x else g

/-- One argument's worth of the `_gcd` loop: `while x > 0: x, g = g % x, x`. -/
def pyGcdStep (x g : Nat) : Nat := pyGcdAux (x + 1) x g

/-- `_gcd(x, m)`: the accumulator starts at 0 and absorbs `x` then `m`. -/
def pyGcd2 (x m : Nat) : Nat := pyGcdStep m (pyGcdStep x 0)

/-- `_lcm(iterable)`: `lcm = 1; for val: lcm *= val // _gcd(val, lcm)`. -/
def pyLcm (l : List Nat) : Nat :=
  l.foldl (fun m x => m * (x / pyGcd2 x m)) 1

/-! ## The value type -/

/-- The `ValueError`s the library can raise. -/
inductive PermError where
  | notInjective
  | inconsistentCycle
  | notCyclic
deriving DecidableEq, Repr

/-- A constructed `Permutation` object: `_map` (the stored FrozenDict bindings
in insertion order), `_orbits` (represented by each orbit's `_cycle` list; the
actual orbit objects are recovered by `cycleValue`), and `_order`. -/
structure Permutation where
  pmap : List (Nat × Nat)
  orbitsL : List (List Nat)
  order : Nat
deriving DecidableEq, Repr

/-- `Permutation()`: the empty permutation (no orbits, order 1).
`permutation.py` has no singleton; any empty construction returns this value. -/
def identityValue : Permutation := ⟨[], [], 1⟩

/-- The `_cycle is not None and len(_cycle) > 1` branch of
`Permutation.__new__`: store `zip(cycle, cycle[1:] + cycle[:1])`, the cycle
itself as the single orbit, and `len(cycle)` as the order. -/
def cycleValue (c : List Nat) : Permutation :=
  ⟨c.zip (c.drop 1 ++ c.take 1), [c], c.length⟩

/-- `cls(_cycle=c)`: the `len(_cycle) > 1` branch stores the cycle; a shorter
`_cycle` falls through to decomposition of `dict()` and yields the empty
permutation. -/
def newFromCycle (c : List Nat) : Permutation :=
  if 1 < c.length then cycleValue c else identityValue

/-! ## Orbit decomposition (`Permutation.__new__`, lines 102-119)

The inner `while True` walk is `cycleWalk`; the outer `while unseen` loop is
`decompose`.  `self[key]` inside the walk is the overridden total
`__getitem__`, i.e. an arbitrary function `f : Nat → Nat` here.  A failing
`unseen.remove(key)` raises `ValueError('mapping is not injective')`. -/

def cycleWalk (f : Nat → Nat) (first : Nat) :
    Nat → Nat → List Nat → List Nat → Except PermError (List Nat × List Nat)
  | 0, _, _, _ => .error .notInjective
  | fuel + 1, key, unseen, orbit =>
    let orbit2 := orbit ++ [key]
    let nxt := f key
    if nxt = first then .ok (orbit2, unseen)
    else if nxt ∈ unseen then cycleWalk f first fuel nxt (unseen.erase nxt) orbit2
    else .error .notInjective

/-- The outer loop: pop the (determinised: minimal, hence head of the sorted
work list) element, walk its orbit, keep it if it has more than one element. -/
def decompose (f : Nat → Nat) : Nat → List Nat → Except PermError (List (List Nat))
  | 0, _ => .error .notInjective
  | _ + 1, [] => .ok []
  | fuel + 1, first :: rest =>
    match cycleWalk f first (rest.length + 1) first rest [] with
    | .error e => .error e
    | .ok res =>
      match decompose f fuel res.2 with
      | .error e => .error e
      | .ok orbits => .ok (if res.1.length > 1 then res.1 :: orbits else orbits)

/-- `min(list)` for a nonempty list (Python's `min`; never called on `[]`). -/
def listMin : List Nat → Nat
  | [] => 0
  | a :: t => t.foldl Nat.min a

/-- `orbits.sort(key=min)`: a stable sort by minimum element.  CPython's sort
is stable; insertion sort models it. -/
def sortByMin (l : List (List Nat)) : List (List Nat) :=
  List.insertionSort (fun a b => listMin a ≤ listMin b) l

/-- The determinised `set(self.keys())` with minimum-first pop order. -/
def sortNat (l : List Nat) : List Nat := List.insertionSort (· ≤ ·) l

/-- `((key, value) for key, value in dict(*args).items() if key != value)`:
fixed points are discarded before storage. -/
def stripFixed (m : List (Nat × Nat)) : List (Nat × Nat) :=
  m.filter (fun kv => decide (kv.1 ≠ kv.2))

/-- `Permutation.__new__` on a raw mapping (the `_cycle is None` path):
strip fixed points, decompose into orbits, sort the orbits by minimum,
collapse a single orbit to the `_cycle` representation, otherwise store the
orbit tuple and `_lcm` of the orbit lengths. -/
def Permutation.new (args : List (Nat × Nat)) : Except PermError Permutation :=
  let stripped := stripFixed (pyDict args)
  let unseen := sortNat (stripped.map Prod.fst)
  match decompose (applyD stripped) (unseen.length + 1) unseen with
  | .error e => .error e
  | .ok orbits =>
    match sortByMin orbits with
    | [c] => .ok (cycleValue c)
    | sorted => .ok ⟨stripped, sorted, pyLcm (sorted.map List.length)⟩

/-- `Permutation.__getitem__` / `__call__`: apply the permutation, total. -/
def Permutation.apply (p : Permutation) (k : Nat) : Nat := applyD p.pmap k

/-- `Permutation.__mul__`: `mapping = dict(self); for key in other:
mapping[key] = self[other[key]]; return self.__class__(mapping)`. -/
def Permutation.mul (p q : Permutation) : Except PermError Permutation :=
  Permutation.new (q.pmap.foldl (fun m kv => dictInsert m kv.1 (p.apply kv.2)) p.pmap)

/-- `args.index(args[0], 1)` with the `ValueError` fallback to `len(args)`:
the cut point where the cycle input starts repeating. -/
def repeatIndex (args : List Nat) : Nat :=
  match (args.drop 1).findIdx? (fun x => decide (x = args.headD 0)) with
  | some i => i + 1
  | none => args.length

/-- `Permutation.cycle`: validate the sequence, rotate the least element first
and build the `_cycle` representation.  Sequences of length ≤ 1 collapse to
`Permutation()`. -/
def Permutation.cycle (args : List Nat) : Except PermError Permutation :=
  if args.length ≤ 1 then Permutation.new []
  else
    let ri := repeatIndex args
    let args2 := args.take ri
    let rep := args.drop ri
    let mapping := pyDict (args2.zip (args2.drop 1 ++ args2.take 1))
    if mapping.length < args2.length then .error .inconsistentCycle
    else if !((rep.zip (rep.drop 1 ++ args2.take 1)).all fun kv => decide (kv ∈ mapping)) then
      .error .notCyclic
    else
      let li := args2.findIdx (fun x => decide (x = listMin args2))
      .ok (newFromCycle (args2.drop li ++ args2.take li))

/-- `Permutation.__pow__`: orbit by orbit; an orbit whose length divides the
exponent is skipped, otherwise the orbit splits along the stride-`exp` index
walk (the same loop as `decompose`, on indices `0..order-1` with successor
`(index + exp) % order`; `exp % order` is Python `%`, i.e. `Int.emod`), and
each split cycle of length > 1 is multiplied into the accumulator. -/
def Permutation.pow (p : Permutation) (e : Int) : Except PermError Permutation :=
  p.orbitsL.foldlM (fun (value : Permutation) (c : List Nat) =>
    let n : Nat := c.length
    if e % (n : Int) = 0 then .ok value
    else
      let eN : Nat := (e % (n : Int)).toNat
      match decompose (fun i => (i + eN) % n) (n + 1) (List.range n) with
      | .error err => .error err
      | .ok idxOrbits =>
        idxOrbits.foldlM (fun (v : Permutation) (idxs : List Nat) =>
          let nc : List Nat := idxs.map (fun i => c.getD i 0)
          if nc.length > 1 then v.mul (cycleValue nc) else .ok v) value)
    identityValue

/-- `Permutation.product`: `result = cls(); for perm in args: result *= perm`. -/
def Permutation.product (args : List Permutation) : Except PermError Permutation :=
  args.foldlM Permutation.mul identityValue

/-- `self._orbits` as actual orbit objects (`cls(_cycle=cycle)` per orbit). -/
def Permutation.orbitValues (p : Permutation) : List Permutation :=
  p.orbitsL.map cycleValue

/-- `Permutation.orbit`: the first orbit whose stored map contains `key`,
else `self.__class__()`. -/
def Permutation.orbit (p : Permutation) (k : Nat) : Permutation :=
  (p.orbitValues.find? (fun o => o.pmap.any (fun kv => decide (kv.1 = k)))).getD
    identityValue

/-- `_FrozenDict.__eq__` on permutation values: the stored dicts are equal as
finite maps (CPython dict equality ignores insertion order). -/
def dictEqB (a b : List (Nat × Nat)) : Bool :=
  a.all (fun kv => decide (lookup b kv.1 = some kv.2)) &&
  b.all (fun kv => decide (lookup a kv.1 = some kv.2))

/-- Python `p == q` for permutation values. -/
def Permutation.pyEq (p q : Permutation) : Bool := dictEqB p.pmap q.pmap

/-- `self._hash = hash(frozenset(self._map))`: iterating a dict yields its
keys, so the hash is a function of the key set; we model it by the key set
itself. -/
def Permutation.pyHash (p : Permutation) : Finset Nat :=
  (p.pmap.map Prod.fst).toFinset

/-- Values reachable through the library's construction paths: explicit
mapping decomposition, cycle construction, multiplication, exponentiation,
and product-of-terms. -/
inductive Constructed : Permutation → Prop where
  | ofNew (l : List (Nat × Nat)) (p : Permutation) :
      Permutation.new l = .ok p → Constructed p
  | ofCycle (l : List Nat) (p : Permutation) :
      Permutation.cycle l = .ok p → Constructed p
  | ofMul (p q r : Permutation) :
      Constructed p → Constructed q → Permutation.mul p q = .ok r → Constructed r
  | ofPow (p r : Permutation) (e : Int) :
      Constructed p → Permutation.pow p e = .ok r → Constructed r
  | ofProduct (l : List Permutation) (r : Permutation) :
      (∀ p ∈ l, Constructed p) → Permutation.product l = .ok r → Constructed r

/-- A finite mapping is a bijection on its support: every stored value is
again a key, and no two keys share a value. -/
def BijOnSupport (m : List (Nat × Nat)) : Prop :=
  (∀ kv ∈ m, kv.2 ∈ m.map Prod.fst) ∧
  (∀ kv1 ∈ m, ∀ kv2 ∈ m, kv1.2 = kv2.2 → kv1.1 = kv2.1)

instance : DecidablePred BijOnSupport := fun m => by
  unfold BijOnSupport; infer_instance

/-! ## Dictionary lemmas -/

/-- The keys of a dict, in insertion order. -/
def keysOf (m : List (Nat × Nat)) : List Nat := m.map Prod.fst

theorem lookup_nil (k : Nat) : lookup [] k = none := rfl

theorem lookup_cons (kv : Nat × Nat) (m : List (Nat × Nat)) (k : Nat) :
    lookup (kv :: m) k = if kv.1 = k then some kv.2 else lookup m k := by
  by_cases h : kv.1 = k <;> simp [lookup, List.find?, h]

theorem lookup_eq_none_iff (m : List (Nat × Nat)) (k : Nat) :
    lookup m k = none ↔ k ∉ keysOf m := by
  induction m with
  | nil => simp [lookup, keysOf]
  | cons kv t ih =>
    rw [lookup_cons]
    by_cases h : kv.1 = k
    · simp only [if_pos h, keysOf, List.map_cons, List.mem_cons]
      simp [h]
    · simp only [if_neg h, keysOf, List.map_cons, List.mem_cons, ih, keysOf]
      constructor
      · intro hnk hc
        rcases hc with hc | hc
        · exact h hc.symm
        · exact hnk hc
      · intro hc hm
        exact hc (Or.inr hm)

theorem lookup_eq_some_of_ne_none (m : List (Nat × Nat)) (k : Nat)
    (h : lookup m k ≠ none) : ∃ v, lookup m k = some v := by
  cases hl : lookup m k with
  | none => exact absurd hl h
  | some v => exact ⟨v, rfl⟩

theorem lookup_mem (m : List (Nat × Nat)) (k v : Nat) (h : lookup m k = some v) :
    (k, v) ∈ m := by
  induction m with
  | nil => simp [lookup] at h
  | cons kv t ih =>
    rw [lookup_cons] at h
    by_cases hk : kv.1 = k
    · rw [if_pos hk] at h
      have hv : kv.2 = v := by injection h
      have : kv = (k, v) := by
        cases kv
        simp at hk hv
        simp [hk, hv]
      rw [← this]
      exact List.mem_cons_self kv t
    · rw [if_neg hk] at h
      exact List.mem_cons_of_mem kv (ih h)

theorem mem_lookup (m : List (Nat × Nat)) (k v : Nat)
    (hnd : (keysOf m).Nodup) (h : (k, v) ∈ m) : lookup m k = some v := by
  induction m with
  | nil => simp at h
  | cons kv t ih =>
    rw [keysOf, List.map_cons, List.nodup_cons] at hnd
    rw [lookup_cons]
    rcases List.mem_cons.1 h with h1 | h1
    · rw [← h1]
      simp
    · have hk : kv.1 ≠ k := by
        intro hc
        apply hnd.1
        rw [hc]
        exact List.mem_map_of_mem Prod.fst h1
      rw [if_neg hk]
      exact ih hnd.2 h1

theorem keysOf_any_iff (m : List (Nat × Nat)) (k : Nat) :
    (m.any fun kv => decide (kv.1 = k)) = true ↔ k ∈ keysOf m := by
  rw [List.any_eq_true]
  constructor
  · rintro ⟨kv, hkv, he⟩
    rw [decide_eq_true_eq] at he
    rw [← he]
    exact List.mem_map_of_mem Prod.fst hkv
  · intro hk
    rcases List.mem_map.1 hk with ⟨kv, hkv, he⟩
    exact ⟨kv, hkv, by rw [decide_eq_true_eq]; exact he⟩

theorem keysOf_dictInsert (m : List (Nat × Nat)) (k v : Nat) :
    keysOf (dictInsert m k v) = if k ∈ keysOf m then keysOf m else keysOf m ++ [k] := by
  unfold dictInsert
  by_cases h : k ∈ keysOf m
  · rw [if_pos ((keysOf_any_iff m k).2 h), if_pos h, keysOf, keysOf]
    rw [List.map_map]
    apply List.map_congr_left
    intro kv _
    by_cases hkv : kv.1 = k <;> simp [hkv]
  · rw [if_neg (fun hc => h ((keysOf_any_iff m k).1 hc)), if_neg h, keysOf, keysOf]
    simp

theorem keysOf_dictInsert_nodup (m : List (Nat × Nat)) (k v : Nat)
    (h : (keysOf m).Nodup) : (keysOf (dictInsert m k v)).Nodup := by
  rw [keysOf_dictInsert]
  by_cases hk : k ∈ keysOf m
  · rwa [if_pos hk]
  · rw [if_neg hk]
    rw [List.nodup_append]
    exact ⟨h, List.nodup_singleton k, fun a ha hc => hk (by
      have : a = k := by simpa using hc
      rw [← this]; exact ha)⟩

theorem map_overwrite_id (t : List (Nat × Nat)) (k v : Nat)
    (h : k ∉ keysOf t) : t.map (fun kv => if kv.1 = k then (k, v) else kv) = t := by
  induction t with
  | nil => rfl
  | cons y ys ihy =>
    rw [List.map_cons]
    have hy : ¬(y.1 = k) := by
      intro hc
      exact h (by rw [← hc]
                  exact List.mem_map_of_mem Prod.fst (List.mem_cons_self y ys))
    rw [if_neg hy, ihy (by
      intro hc
      rcases List.mem_map.1 hc with ⟨x, hx, he⟩
      exact h (by rw [← he]
                  exact List.mem_map_of_mem Prod.fst (List.mem_cons_of_mem y hx)))]

theorem lookup_dictInsert (m : List (Nat × Nat)) (k v k' : Nat) :
    lookup (dictInsert m k v) k' = if k' = k then some v else lookup m k' := by
  unfold dictInsert
  by_cases hmem : (m.any fun kv => decide (kv.1 = k)) = true
  · rw [if_pos hmem]
    rw [keysOf_any_iff] at hmem
    induction m with
    | nil => simp [keysOf] at hmem
    | cons kv t ih =>
      rw [List.map_cons, lookup_cons, lookup_cons]
      by_cases h1 : kv.1 = k
      · rw [if_pos h1]
        simp only
        by_cases h2 : k = k'
        · rw [if_pos h2, if_pos h2.symm]
        · have h2' : ¬(k' = k) := fun hc => h2 hc.symm
          rw [if_neg h2, if_neg h2', if_neg (by rw [h1]; exact h2)]
          by_cases hmem2 : k ∈ keysOf t
          · have := ih hmem2
            rw [if_neg h2'] at this
            exact this
          · rw [map_overwrite_id t k v hmem2]
      · rw [if_neg h1]
        have hmem' : k ∈ keysOf t := by
          rcases List.mem_map.1 hmem with ⟨x, hx, he⟩
          rcases List.mem_cons.1 hx with hx1 | hx1
          · exact absurd (by rw [← hx1]; exact he) h1
          · rw [← he]
            exact List.mem_map_of_mem Prod.fst hx1
        by_cases h2 : kv.1 = k'
        · rw [if_pos h2, if_neg (by rw [← h2]; exact h1), if_pos h2]
        · rw [if_neg h2, if_neg h2]
          exact ih hmem'
  · rw [if_neg hmem]
    have hnone : lookup m k = none := by
      rw [lookup_eq_none_iff]
      intro hc
      exact hmem ((keysOf_any_iff m k).2 hc)
    by_cases h2 : k' = k
    · subst h2
      rw [if_pos rfl]
      induction m with
      | nil => simp [lookup_cons]
      | cons kv t ih =>
        rw [lookup_cons] at hnone
        rw [List.cons_append, lookup_cons]
        by_cases h1 : kv.1 = k'
        · rw [if_pos h1] at hnone
          exact absurd hnone (by simp)
        · rw [if_neg h1] at hnone ⊢
          exact ih (fun hc => hmem (by
            rw [List.any_cons]
            rw [hc]
            simp)) hnone
    · rw [if_neg h2]
      induction m with
      | nil =>
        rw [List.nil_append, lookup_cons, lookup_nil]
        exact if_neg (fun hc : (k, v).1 = k' => h2 (by simpa using hc.symm))
      | cons kv t ih =>
        rw [List.cons_append, lookup_cons, lookup_cons]
        by_cases h1 : kv.1 = k'
        · rw [if_pos h1, if_pos h1]
        · rw [if_neg h1, if_neg h1]
          apply ih
          · intro hc
            apply hmem
            rw [List.any_cons, hc]
            simp
          · rw [lookup_cons] at hnone
            by_cases h3 : kv.1 = k
            · rw [if_pos h3] at hnone
              exact absurd hnone (by simp)
            · rwa [if_neg h3] at hnone

theorem dictInsert_of_not_mem (m : List (Nat × Nat)) (k v : Nat)
    (h : k ∉ keysOf m) : dictInsert m k v = m ++ [(k, v)] := by
  unfold dictInsert
  rw [if_neg (fun hc => h ((keysOf_any_iff m k).1 hc))]

theorem mem_keysOf_dictInsert (m : List (Nat × Nat)) (k v a : Nat) :
    a ∈ keysOf (dictInsert m k v) ↔ a ∈ keysOf m ∨ a = k := by
  rw [keysOf_dictInsert]
  by_cases h : k ∈ keysOf m
  · rw [if_pos h]
    constructor
    · exact Or.inl
    · rintro (ha | ha)
      · exact ha
      · rw [ha]; exact h
  · rw [if_neg h]
    simp

/-- Folding `dictInsert` keeps keys nodup. -/
theorem keysOf_foldl_dictInsert_nodup (g : Nat → Nat) (l : List (Nat × Nat)) :
    ∀ m0 : List (Nat × Nat), (keysOf m0).Nodup →
      (keysOf (l.foldl (fun m kv => dictInsert m kv.1 (g kv.2)) m0)).Nodup := by
  induction l with
  | nil => intro m0 h; exact h
  | cons kv t ih =>
    intro m0 h
    rw [List.foldl_cons]
    exact ih _ (keysOf_dictInsert_nodup m0 kv.1 (g kv.2) h)

theorem pyDict_keys_nodup (l : List (Nat × Nat)) : (keysOf (pyDict l)).Nodup := by
  have := keysOf_foldl_dictInsert_nodup id l [] (by simp [keysOf])
  simpa [pyDict] using this

/-- The lookup behaviour of the `__mul__` update loop: bindings of `l`
(transformed by `g`) win over the initial dict `m0`. -/
theorem lookup_foldl_dictInsert (g : Nat → Nat) (l : List (Nat × Nat))
    (hnd : (keysOf l).Nodup) :
    ∀ (m0 : List (Nat × Nat)) (k : Nat),
      lookup (l.foldl (fun m kv => dictInsert m kv.1 (g kv.2)) m0) k =
        match lookup l k with
        | some v => some (g v)
        | none => lookup m0 k := by
  induction l with
  | nil => intro m0 k; simp [lookup_nil]
  | cons kv t ih =>
    intro m0 k
    rw [keysOf, List.map_cons, List.nodup_cons] at hnd
    rw [List.foldl_cons, ih hnd.2, lookup_cons]
    by_cases h1 : kv.1 = k
    · have ht : lookup t k = none := by
        rw [lookup_eq_none_iff]
        rw [← h1]
        exact hnd.1
      rw [ht, if_pos h1]
      simp only
      rw [lookup_dictInsert, if_pos h1.symm]
    · rw [if_neg h1]
      cases hlt : lookup t k with
      | some v => rfl
      | none =>
        simp only
        rw [lookup_dictInsert, if_neg (fun hc => h1 hc.symm)]

/-- `dict(pairs)` on a duplicate-free association list is the list itself. -/
theorem pyDict_eq_self (l : List (Nat × Nat)) (hnd : (keysOf l).Nodup) :
    pyDict l = l := by
  suffices h : ∀ (acc t : List (Nat × Nat)), (keysOf (acc ++ t)).Nodup →
      t.foldl (fun m kv => dictInsert m kv.1 kv.2) acc = acc ++ t by
    have := h [] l (by simpa using hnd)
    simpa [pyDict] using this
  intro acc t
  induction t generalizing acc with
  | nil => intro _; simp
  | cons kv t ih =>
    intro h
    rw [List.foldl_cons]
    have hk : kv.1 ∉ keysOf acc := by
      intro hc
      rw [keysOf, List.map_append, List.nodup_append] at h
      exact h.2.2 hc (by
        rw [List.map_cons]
        exact List.mem_cons_self kv.1 _)
    rw [dictInsert_of_not_mem acc kv.1 kv.2 hk]
    have := ih (acc ++ [kv]) (by simpa using h)
    rw [this]
    simp

theorem mem_keysOf_pyDict (l : List (Nat × Nat)) (k : Nat) :
    k ∈ keysOf (pyDict l) ↔ k ∈ keysOf l := by
  suffices h : ∀ (acc t : List (Nat × Nat)) (k : Nat),
      k ∈ keysOf (t.foldl (fun m kv => dictInsert m kv.1 kv.2) acc) ↔
        k ∈ keysOf acc ∨ k ∈ keysOf t by
    have := h [] l k
    simpa [pyDict, keysOf] using this
  intro acc t
  induction t generalizing acc with
  | nil => intro k; simp [keysOf]
  | cons kv s ih =>
    intro k
    rw [List.foldl_cons, ih]
    rw [mem_keysOf_dictInsert]
    constructor
    · rintro ((h | h) | h)
      · exact Or.inl h
      · exact Or.inr (by rw [keysOf, List.map_cons, h]; exact List.mem_cons_self _ _)
      · exact Or.inr (by rw [keysOf, List.map_cons]; exact List.mem_cons_of_mem _ h)
    · rintro (h | h)
      · exact Or.inl (Or.inl h)
      · rw [keysOf, List.map_cons, List.mem_cons] at h
        rcases h with h | h
        · exact Or.inl (Or.inr h)
        · exact Or.inr h

/-! ## `stripFixed` lemmas -/

theorem stripFixed_sublist (m : List (Nat × Nat)) : (stripFixed m).Sublist m :=
  List.filter_sublist m

theorem keysOf_stripFixed_nodup (m : List (Nat × Nat)) (h : (keysOf m).Nodup) :
    (keysOf (stripFixed m)).Nodup :=
  List.Nodup.sublist (List.Sublist.map Prod.fst (stripFixed_sublist m)) h

theorem mem_stripFixed (m : List (Nat × Nat)) (kv : Nat × Nat) :
    kv ∈ stripFixed m ↔ kv ∈ m ∧ kv.1 ≠ kv.2 := by
  unfold stripFixed
  rw [List.mem_filter, decide_eq_true_eq]

theorem stripFixed_no_fixed (m : List (Nat × Nat)) (kv : Nat × Nat)
    (h : kv ∈ stripFixed m) : kv.1 ≠ kv.2 :=
  ((mem_stripFixed m kv).1 h).2

theorem lookup_stripFixed (m : List (Nat × Nat)) (hnd : (keysOf m).Nodup) (k : Nat) :
    lookup (stripFixed m) k =
      match lookup m k with
      | some v => if v = k then none else some v
      | none => none := by
  cases hm : lookup m k with
  | none =>
    simp only
    rw [lookup_eq_none_iff] at hm ⊢
    intro hc
    rcases List.mem_map.1 hc with ⟨kv, hkv, he⟩
    exact hm (by rw [← he]
                 exact List.mem_map_of_mem Prod.fst ((mem_stripFixed m kv).1 hkv).1)
  | some v =>
    have hmem : (k, v) ∈ m := lookup_mem m k v hm
    by_cases hv : v = k
    · simp only [if_pos hv]
      rw [lookup_eq_none_iff]
      intro hc
      rcases List.mem_map.1 hc with ⟨kv, hkv, he⟩
      rcases (mem_stripFixed m kv).1 hkv with ⟨hkvm, hne⟩
      have : kv.2 = v := by
        have := mem_lookup m kv.1 kv.2 hnd (by
          cases kv
          exact hkvm)
        rw [he, hm] at this
        injection this with h2
        exact h2.symm
      exact hne (by rw [he, this, hv])
    · simp only [if_neg hv]
      apply mem_lookup _ _ _ (keysOf_stripFixed_nodup m hnd)
      rw [mem_stripFixed]
      exact ⟨hmem, fun hc => hv (by simpa using hc.symm)⟩

theorem applyD_stripFixed (m : List (Nat × Nat)) (hnd : (keysOf m).Nodup) (k : Nat) :
    applyD (stripFixed m) k = applyD m k := by
  unfold applyD
  rw [lookup_stripFixed m hnd k]
  cases hm : lookup m k with
  | none => rfl
  | some v =>
    by_cases hv : v = k
    · simp [hv]
    · simp [hv]

theorem lookup_isSome_iff (m : List (Nat × Nat)) (k : Nat) :
    (lookup m k).isSome = true ↔ k ∈ keysOf m := by
  constructor
  · intro h
    cases hm : lookup m k with
    | none => rw [hm] at h; exact absurd h (by simp)
    | some v => exact List.mem_map_of_mem Prod.fst (lookup_mem m k v hm)
  · intro h
    cases hm : lookup m k with
    | none => exact absurd h ((lookup_eq_none_iff m k).1 hm)
    | some v => rfl

theorem mem_keysOf_stripFixed (m : List (Nat × Nat)) (hnd : (keysOf m).Nodup) (k : Nat) :
    k ∈ keysOf (stripFixed m) ↔ applyD m k ≠ k := by
  rw [← lookup_isSome_iff, lookup_stripFixed m hnd k]
  unfold applyD
  cases hm : lookup m k with
  | none => simp
  | some v =>
    by_cases hv : v = k <;> simp [hv]

theorem stripFixed_idem (m : List (Nat × Nat)) : stripFixed (stripFixed m) = stripFixed m := by
  unfold stripFixed
  rw [List.filter_filter]
  apply List.filter_congr
  intro kv _
  rw [Bool.and_self]

/-! ## `_gcd` / `_lcm` agree with `Nat.gcd` / `Nat.lcm` -/

theorem pyGcdAux_eq_gcd : ∀ (fuel x g : Nat), x < fuel → pyGcdAux fuel x g = Nat.gcd x g := by
  intro fuel
  induction fuel with
  | zero => intro x g h; exact absurd h (Nat.not_lt_zero x)
  | succ n ih =>
    intro x g h
    unfold pyGcdAux
    by_cases hx : 0 < x
    · rw [if_pos hx, ih (g % x) x (Nat.lt_of_lt_of_le (Nat.mod_lt g hx) (Nat.lt_succ_iff.1 h))]
      rcases Nat.exists_eq_add_of_lt hx with ⟨y, hy⟩
      rw [hy]
      simp only [Nat.zero_add]
      rw [Nat.gcd_succ]
    · rw [if_neg hx]
      have : x = 0 := Nat.eq_zero_of_not_pos hx
      rw [this, Nat.gcd_zero_left]

theorem pyGcdStep_eq_gcd (x g : Nat) : pyGcdStep x g = Nat.gcd x g :=
  pyGcdAux_eq_gcd (x + 1) x g (Nat.lt_succ_self x)

theorem pyGcd2_eq_gcd (x m : Nat) : pyGcd2 x m = Nat.gcd m x := by
  unfold pyGcd2
  rw [pyGcdStep_eq_gcd, pyGcdStep_eq_gcd, Nat.gcd_zero_right]

theorem pyLcm_eq_foldl_lcm (l : List Nat) : pyLcm l = l.foldl Nat.lcm 1 := by
  unfold pyLcm
  suffices h : ∀ init : Nat, l.foldl (fun m x => m * (x / pyGcd2 x m)) init = l.foldl Nat.lcm init by
    exact h 1
  induction l with
  | nil => intro init; rfl
  | cons x t ih =>
    intro init
    rw [List.foldl_cons, List.foldl_cons, ih]
    congr 1
    rw [pyGcd2_eq_gcd, Nat.lcm, Nat.mul_div_assoc init (Nat.gcd_dvd_right init x)]

theorem dvd_foldl_lcm_init (a init : Nat) (l : List Nat) (h : a ∣ init) :
    a ∣ l.foldl Nat.lcm init := by
  induction l generalizing init with
  | nil => exact h
  | cons x t ih =>
    rw [List.foldl_cons]
    exact ih _ (Nat.dvd_trans h (Nat.dvd_lcm_left init x))

theorem dvd_foldl_lcm (a : Nat) (l : List Nat) (h : a ∈ l) (init : Nat) :
    a ∣ l.foldl Nat.lcm init := by
  induction l generalizing init with
  | nil => simp at h
  | cons x t ih =>
    rw [List.foldl_cons]
    rcases List.mem_cons.1 h with h1 | h1
    · rw [h1]
      exact dvd_foldl_lcm_init x _ t (Nat.dvd_lcm_right init x)
    · exact ih h1 _

theorem pyLcm_singleton (n : Nat) : pyLcm [n] = n := by
  rw [pyLcm_eq_foldl_lcm]
  simp [Nat.lcm]

/-! ## Walk lemmas -/

/-- The step relation collected by the walk: `b` is the image of `a`. -/
def stepR (f : Nat → Nat) : Nat → Nat → Prop := fun a b => f a = b

theorem cycleWalk_error (f : Nat → Nat) (first : Nat) :
    ∀ (fuel key : Nat) (u o : List Nat) (e : PermError),
      cycleWalk f first fuel key u o = .error e → e = .notInjective := by
  intro fuel
  induction fuel with
  | zero =>
    intro key u o e h
    unfold cycleWalk at h
    injection h with h
    exact h.symm
  | succ n ih =>
    intro key u o e h
    unfold cycleWalk at h
    by_cases h1 : f key = first
    · rw [if_pos h1] at h
      exact absurd h (by simp)
    · rw [if_neg h1] at h
      by_cases h2 : f key ∈ u
      · rw [if_pos h2] at h
        exact ih _ _ _ _ h
      · rw [if_neg h2] at h
        injection h with h
        exact h.symm

theorem cycleWalk_ok_perm (f : Nat → Nat) (first : Nat) :
    ∀ (fuel key : Nat) (u o o2 u2 : List Nat),
      cycleWalk f first fuel key u o = .ok (o2, u2) →
      (o2 ++ u2).Perm ((o ++ [key]) ++ u) := by
  intro fuel
  induction fuel with
  | zero =>
    intro key u o o2 u2 h
    unfold cycleWalk at h
    exact absurd h (by simp)
  | succ n ih =>
    intro key u o o2 u2 h
    unfold cycleWalk at h
    by_cases h1 : f key = first
    · rw [if_pos h1] at h
      injection h with h
      injection h with ho hu
      rw [← ho, ← hu]
    · rw [if_neg h1] at h
      by_cases h2 : f key ∈ u
      · rw [if_pos h2] at h
        have := ih _ _ _ _ _ h
        have hassoc : ((o ++ [key]) ++ [f key]) ++ u.erase (f key) =
            (o ++ [key]) ++ (f key :: u.erase (f key)) := by
          rw [List.append_assoc]
          rfl
        rw [hassoc] at this
        exact this.trans ((List.Perm.append_left (o ++ [key])
          (List.perm_cons_erase h2)).symm)
      · rw [if_neg h2] at h
        exact absurd h (by simp)

theorem cycleWalk_ok_sublist (f : Nat → Nat) (first : Nat) :
    ∀ (fuel key : Nat) (u o o2 u2 : List Nat),
      cycleWalk f first fuel key u o = .ok (o2, u2) → u2.Sublist u := by
  intro fuel
  induction fuel with
  | zero =>
    intro key u o o2 u2 h
    unfold cycleWalk at h
    exact absurd h (by simp)
  | succ n ih =>
    intro key u o o2 u2 h
    unfold cycleWalk at h
    by_cases h1 : f key = first
    · rw [if_pos h1] at h
      injection h with h
      injection h with _ hu
      rw [← hu]
    · rw [if_neg h1] at h
      by_cases h2 : f key ∈ u
      · rw [if_pos h2] at h
        exact List.Sublist.trans (ih _ _ _ _ _ h) (List.erase_sublist _ _)
      · rw [if_neg h2] at h
        exact absurd h (by simp)

theorem cycleWalk_ok_shape (f : Nat → Nat) (first : Nat) :
    ∀ (fuel key : Nat) (u o o2 u2 : List Nat),
      cycleWalk f first fuel key u o = .ok (o2, u2) →
      ∃ mid, o2 = o ++ key :: mid := by
  intro fuel
  induction fuel with
  | zero =>
    intro key u o o2 u2 h
    unfold cycleWalk at h
    exact absurd h (by simp)
  | succ n ih =>
    intro key u o o2 u2 h
    unfold cycleWalk at h
    by_cases h1 : f key = first
    · rw [if_pos h1] at h
      injection h with h
      injection h with ho _
      exact ⟨[], by rw [← ho]⟩
    · rw [if_neg h1] at h
      by_cases h2 : f key ∈ u
      · rw [if_pos h2] at h
        rcases ih _ _ _ _ _ h with ⟨mid, hmid⟩
        refine ⟨f key :: mid, ?_⟩
        rw [hmid, List.append_assoc]
        rfl
      · rw [if_neg h2] at h
        exact absurd h (by simp)

theorem cycleWalk_ok_chain (f : Nat → Nat) (first : Nat) :
    ∀ (fuel key : Nat) (u o o2 u2 : List Nat),
      cycleWalk f first fuel key u o = .ok (o2, u2) →
      List.Chain' (stepR f) (o ++ [key]) →
      List.Chain' (stepR f) o2 ∧ (∀ x ∈ o2.getLast?, f x = first) ∧
        o2.head? = (o ++ [key]).head? := by
  intro fuel
  induction fuel with
  | zero =>
    intro key u o o2 u2 h
    unfold cycleWalk at h
    exact absurd h (by simp)
  | succ n ih =>
    intro key u o o2 u2 h hch
    unfold cycleWalk at h
    by_cases h1 : f key = first
    · rw [if_pos h1] at h
      injection h with h
      injection h with ho _
      subst ho
      refine ⟨hch, ?_, rfl⟩
      intro x hx
      rw [List.getLast?_concat] at hx
      have : x = key := by injection hx with hx; exact hx.symm
      rw [this, h1]
    · rw [if_neg h1] at h
      by_cases h2 : f key ∈ u
      · rw [if_pos h2] at h
        have hch2 : List.Chain' (stepR f) ((o ++ [key]) ++ [f key]) := by
          rw [List.chain'_append]
          refine ⟨hch, List.chain'_singleton _, ?_⟩
          intro x hx y hy
          rw [List.getLast?_concat] at hx
          have hxk : x = key := by injection hx with hx; exact hx.symm
          rw [List.head?_cons] at hy
          have hyk : y = f key := by injection hy with hy; exact hy.symm
          rw [hxk, hyk]
          rfl
        have := ih _ _ _ _ _ h hch2
        refine ⟨this.1, this.2.1, ?_⟩
        rw [this.2.2, List.head?_append, List.head?_append]
        cases o with
        | nil => rfl
        | cons a t => rfl
      · rw [if_neg h2] at h
        exact absurd h (by simp)

theorem cycleWalk_ok_len_one (f : Nat → Nat) (first : Nat)
    (fuel : Nat) (u o2 u2 : List Nat)
    (h : cycleWalk f first fuel first u [] = .ok (o2, u2))
    (hl : o2.length = 1) : f first = first := by
  cases fuel with
  | zero =>
    unfold cycleWalk at h
    exact absurd h (by simp)
  | succ n =>
    unfold cycleWalk at h
    by_cases h1 : f first = first
    · exact h1
    · rw [if_neg h1] at h
      by_cases h2 : f first ∈ u
      · rw [if_pos h2] at h
        rcases cycleWalk_ok_shape f first _ _ _ _ _ _ h with ⟨mid, hmid⟩
        rw [hmid] at hl
        simp at hl
      · rw [if_neg h2] at h
        exact absurd h (by simp)

/-- In an `f`-chain, mapping `f` over all but the last element gives the tail. -/
theorem chain_map_dropLast (f : Nat → Nat) (l : List Nat)
    (h : List.Chain' (stepR f) l) : l.dropLast.map f = l.tail := by
  induction l with
  | nil => rfl
  | cons a t ih =>
    cases t with
    | nil => rfl
    | cons b s =>
      rw [List.chain'_cons] at h
      rw [List.dropLast_cons₂, List.map_cons, ih h.2, List.tail_cons]
      have hb : f a = b := h.1
      rw [hb]
      rfl

/-- The walk succeeds whenever `f` is injective and closed on the combined
element list: the only way the walk can revisit an element early is a failure
of injectivity. -/
theorem cycleWalk_ok_of_inj (f : Nat → Nat) (first : Nat) :
    ∀ (fuel key : Nat) (u o : List Nat),
      (∀ x ∈ (o ++ [key]) ++ u, f x ∈ (o ++ [key]) ++ u) →
      (∀ x ∈ (o ++ [key]) ++ u, ∀ y ∈ (o ++ [key]) ++ u, f x = f y → x = y) →
      ((o ++ [key]) ++ u).Nodup →
      List.Chain' (stepR f) (o ++ [key]) →
      (o ++ [key]).head? = some first →
      u.length < fuel →
      ∃ o2 u2, cycleWalk f first fuel key u o = .ok (o2, u2) := by
  intro fuel
  induction fuel with
  | zero =>
    intro key u o _ _ _ _ _ hf
    omega
  | succ n ih =>
    intro key u o hclo hinj hnd hch hhd hf
    unfold cycleWalk
    by_cases h1 : f key = first
    · rw [if_pos h1]
      exact ⟨_, _, rfl⟩
    · rw [if_neg h1]
      have hkey : key ∈ (o ++ [key]) ++ u := by simp
      have hnxt : f key ∈ (o ++ [key]) ++ u := hclo key hkey
      have hnu : f key ∈ u := by
        rcases List.mem_append.1 hnxt with hin | hin
        · exfalso
          -- `f key` landed back in the chain before closing: injectivity breaks.
          have htl : f key ∈ (o ++ [key]).tail := by
            cases hl : (o ++ [key]) with
            | nil => rw [hl] at hin; simp at hin
            | cons a t =>
              rw [hl] at hin hhd
              have ha : a = first := by simpa using hhd
              rcases List.mem_cons.1 hin with h2 | h2
              · exact absurd (by rw [h2, ha]) h1
              · exact h2
          rw [← chain_map_dropLast f _ hch] at htl
          rcases List.mem_map.1 htl with ⟨x, hx, hxe⟩
          have hxmem : x ∈ (o ++ [key]) ++ u :=
            List.mem_append_left u (List.mem_of_mem_dropLast hx)
          have hxk : x = key := hinj x hxmem key hkey hxe
          rw [List.dropLast_concat] at hx
          rw [hxk] at hx
          have : key ∉ o := by
            have hnd2 : (o ++ [key]).Nodup := ((List.nodup_append).1 hnd).1
            rcases (List.nodup_append).1 hnd2 with ⟨_, _, hdisj⟩
            intro hc
            exact hdisj hc (List.mem_singleton_self key)
          exact this hx
        · exact hin
      rw [if_pos hnu]
      have hperm : (((o ++ [key]) ++ [f key]) ++ u.erase (f key)).Perm
          ((o ++ [key]) ++ u) := by
        have hassoc : ((o ++ [key]) ++ [f key]) ++ u.erase (f key) =
            (o ++ [key]) ++ (f key :: u.erase (f key)) := by
          rw [List.append_assoc]
          rfl
        rw [hassoc]
        exact List.Perm.append_left (o ++ [key]) (List.perm_cons_erase hnu).symm
      have hch2 : List.Chain' (stepR f) ((o ++ [key]) ++ [f key]) := by
        rw [List.chain'_append]
        refine ⟨hch, List.chain'_singleton _, ?_⟩
        intro x hx y hy
        rw [List.getLast?_concat] at hx
        have hxk : x = key := by injection hx with h2; exact h2.symm
        rw [List.head?_cons] at hy
        have hyk : y = f key := by injection hy with h2; exact h2.symm
        rw [hxk, hyk]
        rfl
      have hlen : (u.erase (f key)).length < n := by
        have h1 : (u.erase (f key)).length = u.length - 1 := List.length_erase_of_mem hnu
        have h2 : 0 < u.length := List.length_pos_of_mem hnu
        by_cases hn : n = 0
        · exfalso
          rw [hn] at hf
          omega
        · omega
      rcases ih (f key) (u.erase (f key)) (o ++ [key])
        (fun x hx => (hperm.mem_iff).2 (hclo x ((hperm.mem_iff).1 hx)))
        (fun x hx y hy he => hinj x ((hperm.mem_iff).1 hx) y ((hperm.mem_iff).1 hy) he)
        (hperm.symm.nodup hnd) hch2
        (by rw [List.head?_append, hhd]; rfl) hlen with ⟨o2, u2, h2⟩
      exact ⟨o2, u2, h2⟩

/-! ## `listMin` and closed-chain helper lemmas -/

theorem nat_min_choice (a b : Nat) : Nat.min a b = a ∨ Nat.min a b = b := by
  by_cases h : a ≤ b
  · exact Or.inl (Nat.min_eq_left h)
  · exact Or.inr (Nat.min_eq_right (Nat.le_of_not_le h))

theorem foldl_min_facts (t : List Nat) :
    ∀ a : Nat, t.foldl Nat.min a ≤ a ∧ (∀ x ∈ t, t.foldl Nat.min a ≤ x) ∧
      (t.foldl Nat.min a = a ∨ t.foldl Nat.min a ∈ t) := by
  induction t with
  | nil =>
    intro a
    exact ⟨Nat.le_refl a, by simp, Or.inl rfl⟩
  | cons b s ih =>
    intro a
    rw [List.foldl_cons]
    rcases ih (Nat.min a b) with ⟨h1, h2, h3⟩
    refine ⟨Nat.le_trans h1 (Nat.min_le_left a b), ?_, ?_⟩
    · intro x hx
      rcases List.mem_cons.1 hx with hx | hx
      · rw [hx]
        exact Nat.le_trans h1 (Nat.min_le_right a b)
      · exact h2 x hx
    · rcases h3 with h3 | h3
      · rcases nat_min_choice a b with hm | hm
        · exact Or.inl (by rw [h3, hm])
        · exact Or.inr (by rw [h3, hm]; exact List.mem_cons_self b s)
      · exact Or.inr (List.mem_cons_of_mem b h3)

theorem listMin_cons (a : Nat) (t : List Nat) : listMin (a :: t) = t.foldl Nat.min a := rfl

theorem listMin_le (l : List Nat) (x : Nat) (h : x ∈ l) : listMin l ≤ x := by
  cases l with
  | nil => simp at h
  | cons a t =>
    rw [listMin_cons]
    rcases List.mem_cons.1 h with h1 | h1
    · rw [h1]
      exact (foldl_min_facts t a).1
    · exact (foldl_min_facts t a).2.1 x h1

theorem listMin_mem (l : List Nat) (h : l ≠ []) : listMin l ∈ l := by
  cases l with
  | nil => exact absurd rfl h
  | cons a t =>
    rw [listMin_cons]
    rcases (foldl_min_facts t a).2.2 with h1 | h1
    · rw [h1]
      exact List.mem_cons_self a t
    · exact List.mem_cons_of_mem a h1

theorem listMin_eq_headD (l : List Nat) (hne : l ≠ [])
    (h : ∀ x ∈ l, l.headD 0 ≤ x) : listMin l = l.headD 0 :=
  Nat.le_antisymm (listMin_le l (l.headD 0) (by
    cases l with
    | nil => exact absurd rfl hne
    | cons a t => exact List.mem_cons_self a t))
  (h (listMin l) (listMin_mem l hne))

theorem getLast?_eq_some_getLastD (l : List Nat) (h : l ≠ []) :
    l.getLast? = some (l.getLastD 0) := by
  rw [List.getLastD_eq_getLast?]
  cases hl : l.getLast? with
  | none => exact absurd (List.getLast?_eq_none_iff.1 hl) h
  | some v => rfl

/-- A nonempty `f`-chain closing back to its head is closed under `f`. -/
theorem closedChain_image (f : Nat → Nat) (l : List Nat)
    (hch : List.Chain' (stepR f) l)
    (hcl : f (l.getLastD 0) = l.headD 0) :
    ∀ x ∈ l, f x ∈ l := by
  intro x hx
  have hne : l ≠ [] := List.ne_nil_of_mem hx
  rcases List.mem_append.1 (by
      rw [List.dropLast_append_getLast hne]
      exact hx) with hdl | hlast
  · have : f x ∈ l.dropLast.map f := List.mem_map_of_mem f hdl
    rw [chain_map_dropLast f l hch] at this
    exact List.mem_of_mem_tail this
  · have hx2 : x = l.getLastD 0 := by
      have h1 := List.mem_singleton.1 hlast
      have h2 : l.getLast? = some (l.getLast hne) := List.getLast?_eq_getLast l hne
      rw [getLast?_eq_some_getLastD l hne] at h2
      injection h2 with h2
      rw [h1, ← h2]
    rw [hx2, hcl]
    cases l with
    | nil => exact absurd rfl hne
    | cons a t => exact List.mem_cons_self a t

/-- Every element of a closing chain has an `f`-preimage inside the chain. -/
theorem closedChain_preimage (f : Nat → Nat) (l : List Nat)
    (hch : List.Chain' (stepR f) l)
    (hcl : f (l.getLastD 0) = l.headD 0) :
    ∀ z ∈ l, ∃ x ∈ l, f x = z := by
  intro z hz
  have hne : l ≠ [] := List.ne_nil_of_mem hz
  cases l with
  | nil => exact absurd rfl hne
  | cons a t =>
    rcases List.mem_cons.1 hz with hz1 | hz1
    · refine ⟨(a :: t).getLastD 0, ?_, ?_⟩
      · have h2 : (a :: t).getLast? = some ((a :: t).getLast (by simp)) :=
          List.getLast?_eq_getLast _ (by simp)
        rw [getLast?_eq_some_getLastD _ (by simp)] at h2
        injection h2 with h2
        rw [h2]
        exact List.getLast_mem (by simp)
      · rw [hcl, hz1]
        rfl
    · have : z ∈ (a :: t).dropLast.map f := by
        rw [chain_map_dropLast f _ hch]
        exact hz1
      rcases List.mem_map.1 this with ⟨x, hx, hxe⟩
      exact ⟨x, List.mem_of_mem_dropLast hx, hxe⟩

/-- Within a nodup closing chain, `f` is injective. -/
theorem closedChain_injOn (f : Nat → Nat) (l : List Nat) (hnd : l.Nodup)
    (hch : List.Chain' (stepR f) l)
    (hcl : f (l.getLastD 0) = l.headD 0) :
    ∀ x ∈ l, ∀ y ∈ l, f x = f y → x = y := by
  intro x hx y hy he
  have hne : l ≠ [] := List.ne_nil_of_mem hx
  have hlast_eq : l.getLast hne = l.getLastD 0 := by
    have h2 : l.getLast? = some (l.getLast hne) := List.getLast?_eq_getLast l hne
    rw [getLast?_eq_some_getLastD l hne] at h2
    injection h2 with h2
    exact h2.symm
  have hsplit : ∀ a ∈ l, a ∈ l.dropLast ∨ a = l.getLastD 0 := by
    intro a ha
    rcases List.mem_append.1 (by
        rw [List.dropLast_append_getLast hne]
        exact ha) with h1 | h1
    · exact Or.inl h1
    · exact Or.inr (by rw [← hlast_eq]; exact List.mem_singleton.1 h1)
  have htail_nodup : (l.dropLast.map f).Nodup := by
    rw [chain_map_dropLast f l hch]
    exact List.Nodup.sublist (List.tail_sublist l) hnd
  have hhead_not_tail : l.headD 0 ∉ l.tail := by
    cases l with
    | nil => exact absurd rfl hne
    | cons a t =>
      rw [List.nodup_cons] at hnd
      exact hnd.1
  rcases hsplit x hx with hx1 | hx1 <;> rcases hsplit y hy with hy1 | hy1
  · exact List.inj_on_of_nodup_map htail_nodup hx1 hy1 he
  · exfalso
    apply hhead_not_tail
    rw [← chain_map_dropLast f l hch]
    rw [hy1] at he
    rw [← hcl, ← he]
    exact List.mem_map_of_mem f hx1
  · exfalso
    apply hhead_not_tail
    rw [← chain_map_dropLast f l hch]
    rw [hx1] at he
    rw [← hcl, he]
    exact List.mem_map_of_mem f hy1
  · rw [hx1, hy1]

/-! ## Decomposition: structure of a successful run -/

/-- Everything `decompose` guarantees about its output on a sorted nodup
work list of moved elements: the kept orbits partition the work list, each is
a closing `f`-chain of length ≥ 2 starting at its minimum, and the orbit list
is sorted by minimum. -/
structure OrbitFacts (f : Nat → Nat) (u : List Nat) (L : List (List Nat)) : Prop where
  flat_perm : L.flatten.Perm u
  chains : ∀ c ∈ L, List.Chain' (stepR f) c
  closing : ∀ c ∈ L, f (c.getLastD 0) = c.headD 0
  lens : ∀ c ∈ L, 1 < c.length
  nodups : ∀ c ∈ L, c.Nodup
  head_min : ∀ c ∈ L, ∀ x ∈ c, c.headD 0 ≤ x
  min_sorted : List.Sorted (fun a b => listMin a ≤ listMin b) L

theorem decompose_error (f : Nat → Nat) :
    ∀ (fuel : Nat) (u : List Nat) (e : PermError),
      decompose f fuel u = .error e → e = .notInjective := by
  intro fuel
  induction fuel with
  | zero =>
    intro u e h
    unfold decompose at h
    injection h with h
    exact h.symm
  | succ n ih =>
    intro u e h
    cases u with
    | nil =>
      unfold decompose at h
      exact absurd h (by simp)
    | cons first rest =>
      unfold decompose at h
      cases hw : cycleWalk f first (rest.length + 1) first rest [] with
      | error e2 =>
        rw [hw] at h
        dsimp only at h
        injection h with h
        rw [← h]
        exact (cycleWalk_error f first _ _ _ _ _ hw).symm ▸ rfl
      | ok res =>
        rw [hw] at h
        dsimp only at h
        cases hd : decompose f n res.2 with
        | error e2 =>
          rw [hd] at h
          dsimp only at h
          injection h with h
          rw [← h]
          exact ih _ _ hd
        | ok L2 =>
          rw [hd] at h
          dsimp only at h
          exact absurd h (by simp)

theorem decompose_ok_facts (f : Nat → Nat) :
    ∀ (fuel : Nat) (u : List Nat) (L : List (List Nat)),
      List.Sorted (· ≤ ·) u → u.Nodup → (∀ x ∈ u, f x ≠ x) →
      decompose f fuel u = .ok L → OrbitFacts f u L := by
  intro fuel
  induction fuel with
  | zero =>
    intro u L _ _ _ h
    unfold decompose at h
    exact absurd h (by simp)
  | succ n ih =>
    intro u L hsort hnd hmov h
    cases u with
    | nil =>
      unfold decompose at h
      have hL : L = [] := by
        injection h with h
        exact h.symm
      subst hL
      exact ⟨List.Perm.refl [], by simp, by simp, by simp, by simp, by simp,
        List.sorted_nil⟩
    | cons first rest =>
      unfold decompose at h
      cases hw : cycleWalk f first (rest.length + 1) first rest [] with
      | error e2 =>
        rw [hw] at h
        dsimp only at h
        exact absurd h (by simp)
      | ok res =>
        rw [hw] at h
        dsimp only at h
        obtain ⟨o2, u2⟩ := res
        cases hd : decompose f n u2 with
        | error e2 =>
          rw [hd] at h
          dsimp only at h
          exact absurd h (by simp)
        | ok L2 =>
          rw [hd] at h
          dsimp only at h
          -- basic walk facts
          have hperm : (o2 ++ u2).Perm (first :: rest) := by
            have := cycleWalk_ok_perm f first _ _ _ _ _ _ hw
            simpa using this
          have hchain := cycleWalk_ok_chain f first _ _ _ _ _ _ hw
            (by simp)
          rcases cycleWalk_ok_shape f first _ _ _ _ _ _ hw with ⟨mid, hmid⟩
          rw [List.nil_append] at hmid
          have ho2ne : o2 ≠ [] := by rw [hmid]; simp
          have ho2head : o2.headD 0 = first := by rw [hmid]; rfl
          have hlen2 : 1 < o2.length := by
            by_contra hc
            have h1 : o2.length = 1 := by
              rw [hmid] at hc ⊢
              rw [List.length_cons] at hc ⊢
              omega
            exact hmov first (List.mem_cons_self first rest)
              (cycleWalk_ok_len_one f first _ _ _ _ hw h1)
          rw [if_pos hlen2] at h
          have hL : L = o2 :: L2 := by
            injection h with h
            exact h.symm
          subst hL
          -- recursive facts
          have hsub : u2.Sublist rest := cycleWalk_ok_sublist f first _ _ _ _ _ _ hw
          rw [List.sorted_cons] at hsort
          have ih2 : OrbitFacts f u2 L2 := ih u2 L2
            (List.Pairwise.sublist hsub hsort.2) (List.Nodup.sublist hsub hnd.of_cons)
            (fun x hx => hmov x (List.mem_cons_of_mem first (hsub.subset hx))) hd
          have hndall : (o2 ++ u2).Nodup := hperm.symm.nodup hnd
          have ho2mem : ∀ x ∈ o2, x ∈ first :: rest := by
            intro x hx
            exact hperm.mem_iff.1 (List.mem_append_left u2 hx)
          have hheadmin : ∀ x ∈ o2, o2.headD 0 ≤ x := by
            intro x hx
            rw [ho2head]
            rcases List.mem_cons.1 (ho2mem x hx) with h1 | h1
            · rw [h1]
            · exact hsort.1 x h1
          have hclose2 : f (o2.getLastD 0) = o2.headD 0 := by
            rw [ho2head]
            exact hchain.2.1 (o2.getLastD 0) (getLast?_eq_some_getLastD o2 ho2ne)
          refine ⟨?_, ?_, ?_, ?_, ?_, ?_, ?_⟩
          · rw [List.flatten_cons]
            exact (List.Perm.append_left o2 ih2.flat_perm).trans hperm
          · intro c hc
            rcases List.mem_cons.1 hc with h1 | h1
            · rw [h1]; exact hchain.1
            · exact ih2.chains c h1
          · intro c hc
            rcases List.mem_cons.1 hc with h1 | h1
            · rw [h1]; exact hclose2
            · exact ih2.closing c h1
          · intro c hc
            rcases List.mem_cons.1 hc with h1 | h1
            · rw [h1]; exact hlen2
            · exact ih2.lens c h1
          · intro c hc
            rcases List.mem_cons.1 hc with h1 | h1
            · rw [h1]; exact ((List.nodup_append).1 hndall).1
            · exact ih2.nodups c h1
          · intro c hc
            rcases List.mem_cons.1 hc with h1 | h1
            · rw [h1]; exact hheadmin
            · exact ih2.head_min c h1
          · rw [List.sorted_cons]
            refine ⟨?_, ih2.min_sorted⟩
            intro c hc
            have hcne : c ≠ [] := by
              have := ih2.lens c hc
              intro hcnil
              rw [hcnil] at this
              simp at this
            have hminc : listMin c ∈ u2 := by
              apply ih2.flat_perm.mem_iff.1
              rw [List.mem_flatten]
              exact ⟨c, hc, listMin_mem c hcne⟩
            have h1 : first ≤ listMin c := hsort.1 _ (hsub.subset hminc)
            rw [listMin_eq_headD o2 ho2ne hheadmin, ho2head]
            exact h1

/-- `decompose` succeeds whenever `f` is a bijection of the work-list set. -/
theorem decompose_ok_of_inj (f : Nat → Nat) :
    ∀ (fuel : Nat) (u : List Nat),
      u.Nodup → (∀ x ∈ u, f x ∈ u) → (∀ x ∈ u, ∀ y ∈ u, f x = f y → x = y) →
      u.length < fuel →
      ∃ L, decompose f fuel u = .ok L := by
  intro fuel
  induction fuel with
  | zero =>
    intro u _ _ _ hf
    omega
  | succ n ih =>
    intro u hnd hclo hinj hf
    cases u with
    | nil => exact ⟨[], rfl⟩
    | cons first rest =>
      have hwalk : ∃ o2 u2,
          cycleWalk f first (rest.length + 1) first rest [] = .ok (o2, u2) := by
        apply cycleWalk_ok_of_inj f first (rest.length + 1) first rest []
        · intro x hx
          simp only [List.nil_append, List.singleton_append] at hx ⊢
          exact hclo x hx
        · intro x hx y hy he
          simp only [List.nil_append, List.singleton_append] at hx hy
          exact hinj x hx y hy he
        · simpa using hnd
        · simp
        · rfl
        · omega
      rcases hwalk with ⟨o2, u2, hw⟩
      -- facts about the walk needed to recurse
      have hperm : (o2 ++ u2).Perm (first :: rest) := by
        have := cycleWalk_ok_perm f first _ _ _ _ _ _ hw
        simpa using this
      have hchain := cycleWalk_ok_chain f first _ _ _ _ _ _ hw (by simp)
      rcases cycleWalk_ok_shape f first _ _ _ _ _ _ hw with ⟨mid, hmid⟩
      rw [List.nil_append] at hmid
      have ho2ne : o2 ≠ [] := by rw [hmid]; simp
      have ho2head : o2.headD 0 = first := by rw [hmid]; rfl
      have hclose2 : f (o2.getLastD 0) = o2.headD 0 := by
        rw [ho2head]
        exact hchain.2.1 (o2.getLastD 0) (getLast?_eq_some_getLastD o2 ho2ne)
      have hndall : (o2 ++ u2).Nodup := hperm.symm.nodup hnd
      rcases List.nodup_append.1 hndall with ⟨hndo2, hndu2, hdisj⟩
      have ho2sub : ∀ x ∈ o2, x ∈ first :: rest := by
        intro x hx
        exact hperm.mem_iff.1 (List.mem_append_left u2 hx)
      have hu2sub : ∀ x ∈ u2, x ∈ first :: rest := by
        intro x hx
        exact hperm.mem_iff.1 (List.mem_append_right o2 hx)
      -- the complement of a completed orbit is still closed and injective
      have hclo2 : ∀ x ∈ u2, f x ∈ u2 := by
        intro x hx
        have hfu : f x ∈ first :: rest := hclo x (hu2sub x hx)
        have : f x ∈ o2 ++ u2 := hperm.mem_iff.2 hfu
        rcases List.mem_append.1 this with h1 | h1
        · exfalso
          rcases closedChain_preimage f o2 hchain.1 hclose2 (f x) h1 with ⟨y, hy, hye⟩
          have : y = x := hinj y (ho2sub y hy) x (hu2sub x hx) hye
          rw [this] at hy
          exact hdisj hy hx
        · exact h1
      have hinj2 : ∀ x ∈ u2, ∀ y ∈ u2, f x = f y → x = y := by
        intro x hx y hy he
        exact hinj x (hu2sub x hx) y (hu2sub y hy) he
      have hlen2 : u2.length < n := by
        have hsub : u2.Sublist rest := cycleWalk_ok_sublist f first _ _ _ _ _ _ hw
        have h1 : u2.length ≤ rest.length := hsub.length_le
        have h2 : rest.length + 1 < n + 1 := by simpa using hf
        omega
      rcases ih u2 hndu2 hclo2 hinj2 hlen2 with ⟨L2, hd⟩
      refine ⟨if o2.length > 1 then o2 :: L2 else L2, ?_⟩
      unfold decompose
      rw [hw]
      dsimp only
      rw [hd]

/-- If decomposition succeeded on the moved-element list, the stored mapping
was a bijection of that list (closure). -/
theorem orbitFacts_closure (f : Nat → Nat) (u : List Nat) (L : List (List Nat))
    (hfacts : OrbitFacts f u L) : ∀ x ∈ u, f x ∈ u := by
  intro x hx
  rcases List.mem_flatten.1 (hfacts.flat_perm.mem_iff.2 hx) with ⟨c, hc, hxc⟩
  have : f x ∈ c := closedChain_image f c (hfacts.chains c hc) (hfacts.closing c hc) x hxc
  exact hfacts.flat_perm.mem_iff.1 (List.mem_flatten.2 ⟨c, hc, this⟩)

/-- Companion to `orbitFacts_closure`: injectivity on the moved-element list. -/
theorem orbitFacts_inj (f : Nat → Nat) (u : List Nat) (L : List (List Nat))
    (hnd : u.Nodup) (hfacts : OrbitFacts f u L) :
    ∀ x ∈ u, ∀ y ∈ u, f x = f y → x = y := by
  have hflat : L.flatten.Nodup := hfacts.flat_perm.symm.nodup hnd
  rcases List.nodup_flatten.1 hflat with ⟨_, hpair⟩
  intro x hx y hy he
  rcases List.mem_flatten.1 (hfacts.flat_perm.mem_iff.2 hx) with ⟨c1, hc1, hxc⟩
  rcases List.mem_flatten.1 (hfacts.flat_perm.mem_iff.2 hy) with ⟨c2, hc2, hyc⟩
  by_cases hcc : c1 = c2
  · subst hcc
    exact closedChain_injOn f c1 (hfacts.nodups c1 hc1) (hfacts.chains c1 hc1)
      (hfacts.closing c1 hc1) x hxc y hyc he
  · exfalso
    have hdisj : List.Disjoint c1 c2 :=
      List.Pairwise.forall (fun a b h => h.symm) hpair hc1 hc2 hcc
    have h1 : f x ∈ c1 :=
      closedChain_image f c1 (hfacts.chains c1 hc1) (hfacts.closing c1 hc1) x hxc
    have h2 : f y ∈ c2 :=
      closedChain_image f c2 (hfacts.chains c2 hc2) (hfacts.closing c2 hc2) y hyc
    rw [he] at h1
    exact hdisj h1 h2

/-! ## The stored map of a cycle value -/

theorem cycleValue_rot_length (c : List Nat) :
    (c.drop 1 ++ c.take 1).length = c.length := by
  rw [List.length_append, List.length_drop, List.length_take]
  cases c with
  | nil => rfl
  | cons a t => simp

theorem keysOf_cycleValue (c : List Nat) : keysOf (cycleValue c).pmap = c := by
  unfold cycleValue keysOf
  exact List.map_fst_zip c _ (by rw [cycleValue_rot_length])

/-- The stored pairs of a cycle value are index-adjacent pairs of the cycle. -/
theorem cycleValue_pair_mem (cl : List Nat) (i : Nat) (hi : i < cl.length) :
    (cl[i], if i + 1 < cl.length then (cl[i + 1]?).getD 0 else cl.headD 0) ∈
      (cycleValue cl).pmap := by
  unfold cycleValue
  simp only
  have hlen : (cl.zip (cl.drop 1 ++ cl.take 1)).length = cl.length := by
    rw [List.length_zip, cycleValue_rot_length, Nat.min_self]
  have hizip : i < (cl.zip (cl.drop 1 ++ cl.take 1)).length := by rw [hlen]; exact hi
  have hval : (cl.zip (cl.drop 1 ++ cl.take 1))[i] =
      (cl[i], if i + 1 < cl.length then (cl[i + 1]?).getD 0 else cl.headD 0) := by
    rw [List.getElem_zip]
    congr 1
    rw [List.getElem_append]
    by_cases h2 : i + 1 < cl.length
    · rw [dif_pos (by rw [List.length_drop]; omega), if_pos h2]
      rw [List.getElem_drop, List.getElem?_eq_getElem (by omega)]
      simp only [Option.getD_some]
      congr 1
      omega
    · rw [dif_neg (by rw [List.length_drop]; omega), if_neg h2]
      rw [List.getElem_take]
      have hidx : i - (List.drop 1 cl).length = 0 := by
        rw [List.length_drop]
        omega
      cases cl with
      | nil => simp at hi
      | cons a t =>
        rw [List.headD_cons]
        have h0 : i - (List.drop 1 (a :: t)).length = 0 := hidx
        simp only [h0]
        rfl
  rw [← hval]
  exact List.getElem_mem hizip

/-- The apply function of a cycle value agrees with any function `f` of which
the cycle is a closing chain, and fixes everything outside the cycle. -/
theorem applyD_cycleValue (cl : List Nat) (f : Nat → Nat) (hnd : cl.Nodup)
    (hch : List.Chain' (stepR f) cl) (hcl : f (cl.getLastD 0) = cl.headD 0) (k : Nat) :
    applyD (cycleValue cl).pmap k = if k ∈ cl then f k else k := by
  by_cases hk : k ∈ cl
  · rw [if_pos hk]
    rcases List.mem_iff_getElem.1 hk with ⟨i, hi, hie⟩
    have hnd2 : (keysOf (cycleValue cl).pmap).Nodup := by
      rw [keysOf_cycleValue]
      exact hnd
    have hval : f k = if i + 1 < cl.length then (cl[i + 1]?).getD 0 else cl.headD 0 := by
      by_cases h2 : i + 1 < cl.length
      · rw [if_pos h2]
        have h3 := List.chain'_iff_get.1 hch i (by omega)
        rw [← hie]
        simp only [List.get_eq_getElem] at h3
        rw [List.getElem?_eq_getElem h2]
        simp only [Option.getD_some]
        exact h3
      · rw [if_neg h2]
        have hlast : cl.getLastD 0 = cl[i] := by
          have hne : cl ≠ [] := List.ne_nil_of_mem hk
          have h3 : cl.getLast hne = cl[cl.length - 1] := List.getLast_eq_getElem cl hne
          have h4 : cl.getLast hne = cl.getLastD 0 := by
            have h5 := List.getLast?_eq_getLast cl hne
            rw [getLast?_eq_some_getLastD cl hne] at h5
            injection h5 with h5
            exact h5.symm
          rw [← h4, h3]
          have h6 : cl.length - 1 = i := by omega
          simp only [h6]
        rw [← hie, ← hlast, hcl]
    have hmem := cycleValue_pair_mem cl i hi
    rw [hie] at hmem
    rw [← hval] at hmem
    unfold applyD
    rw [mem_lookup _ _ _ hnd2 hmem]
    rfl
  · rw [if_neg hk]
    unfold applyD
    have : lookup (cycleValue cl).pmap k = none := by
      rw [lookup_eq_none_iff, keysOf_cycleValue]
      exact hk
    rw [this]
    rfl

/-- Transfer a chain along a function agreeing on the chain's elements. -/
theorem chain_congr (f g : Nat → Nat) :
    ∀ l : List Nat, (∀ x ∈ l, f x = g x) → List.Chain' (stepR f) l →
      List.Chain' (stepR g) l
  | [], _, _ => List.chain'_nil
  | [a], _, _ => List.chain'_singleton a
  | a :: b :: t, h, hch => by
    rw [List.chain'_cons] at hch ⊢
    constructor
    · unfold stepR at hch ⊢
      rw [← h a (List.mem_cons_self a _)]
      exact hch.1
    · exact chain_congr f g (b :: t) (fun x hx => h x (List.mem_cons_of_mem a hx)) hch.2

/-! ## Characterisation of `Permutation.new` -/

/-- The dict that `Permutation.__new__` actually stores and decomposes. -/
def strippedOf (l : List (Nat × Nat)) : List (Nat × Nat) := stripFixed (pyDict l)

theorem strippedOf_keys_nodup (l : List (Nat × Nat)) : (keysOf (strippedOf l)).Nodup :=
  keysOf_stripFixed_nodup _ (pyDict_keys_nodup l)

theorem mem_keysOf_strippedOf (l : List (Nat × Nat)) (k : Nat) :
    k ∈ keysOf (strippedOf l) ↔ applyD (strippedOf l) k ≠ k := by
  unfold strippedOf
  rw [mem_keysOf_stripFixed _ (pyDict_keys_nodup l) k,
    applyD_stripFixed _ (pyDict_keys_nodup l) k]

theorem getLastD_mem (l : List Nat) (h : l ≠ []) : l.getLastD 0 ∈ l := by
  have h2 : l.getLast? = some (l.getLast h) := List.getLast?_eq_getLast l h
  rw [getLast?_eq_some_getLastD l h] at h2
  injection h2 with h2
  rw [h2]
  exact List.getLast_mem h

theorem sortNat_perm (l : List Nat) : (sortNat l).Perm l :=
  List.perm_insertionSort _ l

theorem sortNat_sorted (l : List Nat) : List.Sorted (· ≤ ·) (sortNat l) :=
  List.sorted_insertionSort _ l

theorem sortNat_nodup (l : List Nat) (h : l.Nodup) : (sortNat l).Nodup :=
  (sortNat_perm l).symm.nodup h

theorem sortNat_eq_of_perm (l1 l2 : List Nat) (h : l1.Perm l2) :
    sortNat l1 = sortNat l2 :=
  List.eq_of_perm_of_sorted ((sortNat_perm l1).trans (h.trans (sortNat_perm l2).symm))
    (sortNat_sorted l1) (sortNat_sorted l2)

/-- Everything a successfully constructed value satisfies, stated without
reference to the construction input. -/
structure IsCanon (p : Permutation) : Prop where
  keys_nodup : (keysOf p.pmap).Nodup
  no_fixed : ∀ kv ∈ p.pmap, kv.1 ≠ kv.2
  facts : OrbitFacts (Permutation.apply p) (sortNat (keysOf p.pmap)) p.orbitsL
  order_eq : p.order = pyLcm (p.orbitsL.map List.length)
  shape : (p.orbitsL = [] ∧ p = identityValue) ∨
    (∃ cl, p.orbitsL = [cl] ∧ p = cycleValue cl) ∨ 2 ≤ p.orbitsL.length

/-- Main characterisation of `Permutation.__new__`: the constructed value
applies exactly like the stripped input dict, and is canonical. -/
theorem new_ok_main (l : List (Nat × Nat)) (p : Permutation)
    (hok : Permutation.new l = .ok p) :
    (∀ k, Permutation.apply p k = applyD (strippedOf l) k) ∧ IsCanon p := by
  unfold Permutation.new at hok
  dsimp only at hok
  have hkeysnd : (keysOf (strippedOf l)).Nodup := strippedOf_keys_nodup l
  have hund : (sortNat (keysOf (strippedOf l))).Nodup := sortNat_nodup _ hkeysnd
  have husort := sortNat_sorted (keysOf (strippedOf l))
  have hmoved : ∀ x ∈ sortNat (keysOf (strippedOf l)), applyD (strippedOf l) x ≠ x := by
    intro x hx
    exact (mem_keysOf_strippedOf l x).1 ((sortNat_perm _).mem_iff.1 hx)
  cases hd : decompose (applyD (stripFixed (pyDict l)))
      ((sortNat ((stripFixed (pyDict l)).map Prod.fst)).length + 1)
      (sortNat ((stripFixed (pyDict l)).map Prod.fst)) with
  | error e =>
    rw [hd] at hok
    exact absurd hok (by simp)
  | ok L =>
    rw [hd] at hok
    dsimp only at hok
    have hfacts : OrbitFacts (applyD (strippedOf l)) (sortNat (keysOf (strippedOf l))) L :=
      decompose_ok_facts _ _ _ _ husort hund hmoved hd
    have hsorted_eq : sortByMin L = L :=
      List.Sorted.insertionSort_eq hfacts.min_sorted
    rw [hsorted_eq] at hok
    cases L with
    | nil =>
      -- zero orbits: the stripped dict must be empty
      dsimp only at hok
      have hu_nil : sortNat (keysOf (strippedOf l)) = [] :=
        (hfacts.flat_perm).symm.eq_nil
      have hkeys_nil : keysOf (strippedOf l) = [] := by
        have := sortNat_perm (keysOf (strippedOf l))
        rw [hu_nil] at this
        exact this.symm.eq_nil
      have hD_nil : strippedOf l = [] := by
        have := congrArg List.length hkeys_nil
        rw [keysOf, List.length_map] at this
        exact List.eq_nil_of_length_eq_zero this
      injection hok with h2
      have hDn : stripFixed (pyDict l) = [] := hD_nil
      have hp : p = identityValue := by
        rw [← h2]
        unfold identityValue
        rw [hDn]
        rfl
      subst hp
      constructor
      · intro k
        unfold strippedOf
        rw [hDn]
        rfl
      · refine ⟨by simp [identityValue, keysOf], by simp [identityValue], ?_, rfl,
          Or.inl ⟨rfl, rfl⟩⟩
        refine ⟨?_, by intro c hc; simp [identityValue] at hc,
          by intro c hc; simp [identityValue] at hc,
          by intro c hc; simp [identityValue] at hc,
          by intro c hc; simp [identityValue] at hc,
          by intro c hc; simp [identityValue] at hc, List.sorted_nil⟩
        simp [identityValue, keysOf, sortNat]
    | cons c1 Lt =>
      cases Lt with
      | nil =>
        -- exactly one orbit: the value collapses to the cycle representation
        dsimp only at hok
        have hp : p = cycleValue c1 := by injection hok with h2; exact h2.symm
        subst hp
        have hc1 : c1 ∈ [c1] := List.mem_singleton_self c1
        have hchain := hfacts.chains c1 hc1
        have hclose := hfacts.closing c1 hc1
        have hnodup := hfacts.nodups c1 hc1
        have hlen := hfacts.lens c1 hc1
        have hflat : c1.Perm (sortNat (keysOf (strippedOf l))) := by
          have := hfacts.flat_perm
          simpa using this
        have hne : c1 ≠ [] := by
          intro hc
          rw [hc] at hlen
          simp at hlen
        have happ : ∀ k, Permutation.apply (cycleValue c1) k = applyD (strippedOf l) k := by
          intro k
          unfold Permutation.apply
          rw [applyD_cycleValue c1 (applyD (strippedOf l)) hnodup hchain hclose k]
          by_cases hk : k ∈ c1
          · rw [if_pos hk]
          · rw [if_neg hk]
            have : k ∉ keysOf (strippedOf l) := by
              intro hc
              apply hk
              apply hflat.mem_iff.2
              exact (sortNat_perm _).symm.mem_iff.1 hc
            have hnone : lookup (strippedOf l) k = none := (lookup_eq_none_iff _ k).2 this
            unfold applyD
            rw [hnone]
            rfl
        refine ⟨happ, ?_⟩
        have hkeysc : keysOf (cycleValue c1).pmap = c1 := keysOf_cycleValue c1
        refine ⟨by rw [hkeysc]; exact hnodup, ?_, ?_, ?_, Or.inr (Or.inl ⟨c1, rfl, rfl⟩)⟩
        · intro kv hkv
          have hk1 : kv.1 ∈ c1 := by
            rw [← hkeysc]
            exact List.mem_map_of_mem Prod.fst hkv
          have hlook : lookup (cycleValue c1).pmap kv.1 = some kv.2 := by
            apply mem_lookup _ _ _ (by rw [hkeysc]; exact hnodup)
            cases kv
            exact hkv
          have happ2 : Permutation.apply (cycleValue c1) kv.1 = kv.2 := by
            unfold Permutation.apply applyD
            rw [hlook]
            rfl
          have hmv : applyD (strippedOf l) kv.1 ≠ kv.1 := by
            apply hmoved
            apply hflat.mem_iff.1 hk1
          rw [happ kv.1] at happ2
          exact fun hc => hmv (happ2.trans hc.symm)
        · rw [hkeysc]
          refine ⟨by simpa [cycleValue] using (sortNat_perm c1).symm, ?_, ?_, ?_, ?_, ?_, ?_⟩
          · intro c hc
            rw [List.mem_singleton.1 hc]
            apply chain_congr (applyD (strippedOf l)) _ c1 _ hchain
            intro x _
            rw [happ x]
          · intro c hc
            rw [List.mem_singleton.1 hc]
            rw [happ _]
            exact hclose
          · intro c hc
            rw [List.mem_singleton.1 hc]
            exact hlen
          · intro c hc
            rw [List.mem_singleton.1 hc]
            exact hnodup
          · intro c hc
            rw [List.mem_singleton.1 hc]
            exact hfacts.head_min c1 hc1
          · exact List.sorted_singleton c1
        · unfold cycleValue
          simp only [List.map_cons, List.map_nil]
          rw [pyLcm_singleton]
      | cons c2 Lr =>
        -- two or more orbits: the general Permutation value
        dsimp only at hok
        have hp : p = ⟨stripFixed (pyDict l), c1 :: c2 :: Lr,
            pyLcm ((c1 :: c2 :: Lr).map List.length)⟩ := by
          injection hok with h2
          exact h2.symm
        subst hp
        have happ : ∀ k, Permutation.apply
            (⟨stripFixed (pyDict l), c1 :: c2 :: Lr,
              pyLcm ((c1 :: c2 :: Lr).map List.length)⟩ : Permutation) k =
            applyD (strippedOf l) k := fun k => rfl
        refine ⟨happ, ?_⟩
        refine ⟨hkeysnd, ?_, ?_, rfl, Or.inr (Or.inr (by simp))⟩
        · intro kv hkv
          exact stripFixed_no_fixed (pyDict l) kv hkv
        · exact hfacts

/-- Only the not-injective error can come out of `Permutation.new`. -/
theorem new_error_eq (l : List (Nat × Nat)) (e : PermError)
    (h : Permutation.new l = .error e) : e = .notInjective := by
  unfold Permutation.new at h
  dsimp only at h
  cases hd : decompose (applyD (stripFixed (pyDict l)))
      ((sortNat ((stripFixed (pyDict l)).map Prod.fst)).length + 1)
      (sortNat ((stripFixed (pyDict l)).map Prod.fst)) with
  | error e2 =>
    rw [hd] at h
    dsimp only at h
    injection h with h
    rw [← h]
    exact decompose_error _ _ _ _ hd
  | ok L =>
    rw [hd] at h
    dsimp only at h
    cases hL : sortByMin L with
    | nil => rw [hL] at h; exact absurd h (by simp)
    | cons c1 Lt =>
      cases Lt with
      | nil => rw [hL] at h; exact absurd h (by simp)
      | cons c2 Lr => rw [hL] at h; exact absurd h (by simp)

/-! ## Multiplication -/

/-- The dict built by `__mul__` before re-decomposition. -/
def mulDict (p q : Permutation) : List (Nat × Nat) :=
  q.pmap.foldl (fun m kv => dictInsert m kv.1 (p.apply kv.2)) p.pmap

theorem mul_eq_new (p q : Permutation) :
    Permutation.mul p q = Permutation.new (mulDict p q) := rfl

theorem applyD_mulDict (p q : Permutation) (hq : (keysOf q.pmap).Nodup) (k : Nat) :
    applyD (mulDict p q) k = Permutation.apply p (Permutation.apply q k) := by
  unfold applyD mulDict
  rw [lookup_foldl_dictInsert (p.apply) q.pmap hq p.pmap k]
  cases hlq : lookup q.pmap k with
  | some v =>
    have hqa : Permutation.apply q k = v := by
      unfold Permutation.apply applyD
      rw [hlq]
      rfl
    rw [hqa]
    rfl
  | none =>
    have hqa : Permutation.apply q k = k := by
      unfold Permutation.apply applyD
      rw [hlq]
      rfl
    rw [hqa]
    rfl

theorem keysOf_mulDict_nodup (p q : Permutation) (hp : (keysOf p.pmap).Nodup) :
    (keysOf (mulDict p q)).Nodup :=
  keysOf_foldl_dictInsert_nodup _ q.pmap p.pmap hp

/-- A canonical value fixes everything outside its stored keys. -/
theorem isCanon_apply_of_not_mem (p : Permutation) (k : Nat)
    (h : k ∉ keysOf p.pmap) : Permutation.apply p k = k := by
  unfold Permutation.apply applyD
  rw [(lookup_eq_none_iff _ _).2 h]
  rfl

theorem isCanon_moved_iff (p : Permutation) (hc : IsCanon p) (k : Nat) :
    k ∈ keysOf p.pmap ↔ Permutation.apply p k ≠ k := by
  constructor
  · intro hk
    rcases lookup_eq_some_of_ne_none p.pmap k (by
      rw [Ne, lookup_eq_none_iff]
      intro hcn
      exact hcn hk) with ⟨v, hv⟩
    have happ : Permutation.apply p k = v := by
      unfold Permutation.apply applyD
      rw [hv]
      rfl
    rw [happ]
    have := hc.no_fixed (k, v) (lookup_mem _ _ _ hv)
    exact fun hkv => this (by rw [hkv])
  · intro hne
    by_contra hk
    exact hne (isCanon_apply_of_not_mem p k hk)

/-- The apply function of a canonical value is injective (on all of `Nat`). -/
theorem isCanon_apply_inj (p : Permutation) (hc : IsCanon p) :
    ∀ x y, Permutation.apply p x = Permutation.apply p y → x = y := by
  have hund : (sortNat (keysOf p.pmap)).Nodup := sortNat_nodup _ hc.keys_nodup
  have hclo := orbitFacts_closure _ _ _ hc.facts
  have hinj := orbitFacts_inj _ _ _ hund hc.facts
  intro x y he
  by_cases hx : x ∈ keysOf p.pmap <;> by_cases hy : y ∈ keysOf p.pmap
  · exact hinj x ((sortNat_perm _).symm.mem_iff.1 hx) y ((sortNat_perm _).symm.mem_iff.1 hy) he
  · exfalso
    have h1 : Permutation.apply p x ∈ sortNat (keysOf p.pmap) :=
      hclo x ((sortNat_perm _).symm.mem_iff.1 hx)
    rw [he, isCanon_apply_of_not_mem p y hy] at h1
    exact hy ((sortNat_perm _).mem_iff.1 h1)
  · exfalso
    have h1 : Permutation.apply p y ∈ sortNat (keysOf p.pmap) :=
      hclo y ((sortNat_perm _).symm.mem_iff.1 hy)
    rw [← he, isCanon_apply_of_not_mem p x hx] at h1
    exact hx ((sortNat_perm _).mem_iff.1 h1)
  · rw [isCanon_apply_of_not_mem p x hx, isCanon_apply_of_not_mem p y hy] at he
    exact he

/-- `__mul__` always succeeds and produces the canonical composition as soon
as the left factor is canonical and the right factor has nodup keys and an
injective apply (it need not be min-first rotated: `__pow__` multiplies by
raw `_cycle` values). -/
theorem mul_ok_general (p q : Permutation) (hp : IsCanon p)
    (hqnd : (keysOf q.pmap).Nodup)
    (hqinj : ∀ x y, Permutation.apply q x = Permutation.apply q y → x = y) :
    ∃ r, Permutation.mul p q = .ok r ∧
      (∀ k, Permutation.apply r k = Permutation.apply p (Permutation.apply q k)) ∧
      IsCanon r := by
  have hmdnd : (keysOf (mulDict p q)).Nodup := keysOf_mulDict_nodup p q hp.keys_nodup
  have hpyd : pyDict (mulDict p q) = mulDict p q := pyDict_eq_self _ hmdnd
  have happD : ∀ k, applyD (strippedOf (mulDict p q)) k =
      Permutation.apply p (Permutation.apply q k) := by
    intro k
    unfold strippedOf
    rw [hpyd, applyD_stripFixed _ hmdnd k, applyD_mulDict p q hqnd k]
  have hinj : ∀ x y, applyD (strippedOf (mulDict p q)) x =
      applyD (strippedOf (mulDict p q)) y → x = y := by
    intro x y he
    rw [happD, happD] at he
    exact hqinj x y (isCanon_apply_inj p hp _ _ he)
  -- decomposition succeeds
  have hsuc : ∃ L, decompose (applyD (stripFixed (pyDict (mulDict p q))))
      ((sortNat ((stripFixed (pyDict (mulDict p q))).map Prod.fst)).length + 1)
      (sortNat ((stripFixed (pyDict (mulDict p q))).map Prod.fst)) = .ok L := by
    apply decompose_ok_of_inj
    · exact sortNat_nodup _ (strippedOf_keys_nodup (mulDict p q))
    · intro x hx
      have hmv : applyD (strippedOf (mulDict p q)) x ≠ x :=
        (mem_keysOf_strippedOf _ x).1 ((sortNat_perm _).mem_iff.1 hx)
      have hmv2 : applyD (strippedOf (mulDict p q))
          (applyD (strippedOf (mulDict p q)) x) ≠
          applyD (strippedOf (mulDict p q)) x := by
        intro hcon
        exact hmv (hinj _ _ hcon)
      exact (sortNat_perm _).symm.mem_iff.1 ((mem_keysOf_strippedOf _ _).2 hmv2)
    · intro x _ y _ he
      exact hinj x y he
    · omega
  rcases hsuc with ⟨L, hL⟩
  have hok : ∃ r, Permutation.new (mulDict p q) = .ok r := by
    unfold Permutation.new
    dsimp only
    rw [hL]
    dsimp only
    cases hsL : sortByMin L with
    | nil => exact ⟨_, rfl⟩
    | cons c1 Lt =>
      cases Lt with
      | nil => exact ⟨_, rfl⟩
      | cons c2 Lr => exact ⟨_, rfl⟩
  rcases hok with ⟨r, hr⟩
  rcases new_ok_main _ _ hr with ⟨happr, hcanr⟩
  refine ⟨r, ?_, ?_, hcanr⟩
  · rw [mul_eq_new]
    exact hr
  · intro k
    rw [happr k, happD k]

/-- `__mul__` of two canonical values always succeeds, and the result is the
canonical function composition. -/
theorem mul_ok (p q : Permutation) (hp : IsCanon p) (hq : IsCanon q) :
    ∃ r, Permutation.mul p q = .ok r ∧
      (∀ k, Permutation.apply r k = Permutation.apply p (Permutation.apply q k)) ∧
      IsCanon r :=
  mul_ok_general p q hp hq.keys_nodup (isCanon_apply_inj q hq)

/-! ## Chains are determined by their head -/

theorem chain_getElem_iterate (f : Nat → Nat) (l : List Nat)
    (hch : List.Chain' (stepR f) l) :
    ∀ (i : Nat) (h : i < l.length), l[i] = f^[i] (l.headD 0) := by
  intro i
  induction i with
  | zero =>
    intro h
    cases l with
    | nil => simp at h
    | cons a t => rfl
  | succ n ih =>
    intro h
    have h1 : n < l.length - 1 := by omega
    have h2 := List.chain'_iff_get.1 hch n h1
    unfold stepR at h2
    simp only [List.get_eq_getElem] at h2
    rw [Function.iterate_succ_apply', ← ih (by omega)]
    exact h2.symm

theorem getLastD_eq_getElem_last (l : List Nat) (h : l ≠ []) (hlt : l.length - 1 < l.length) :
    l.getLastD 0 = l[l.length - 1] := by
  have h2 : l.getLast? = some (l.getLast h) := List.getLast?_eq_getLast l h
  rw [getLast?_eq_some_getLastD l h] at h2
  injection h2 with h2
  rw [h2, List.getLast_eq_getElem]

theorem chain_iterate_period (f : Nat → Nat) (l : List Nat)
    (hch : List.Chain' (stepR f) l)
    (hcl : f (l.getLastD 0) = l.headD 0) (hne : l ≠ []) :
    f^[l.length] (l.headD 0) = l.headD 0 := by
  have hpos : 0 < l.length := List.length_pos.2 hne
  have hlt : l.length - 1 < l.length := by omega
  have h1 : l.length = (l.length - 1) + 1 := by omega
  rw [h1, Function.iterate_succ_apply',
    ← chain_getElem_iterate f l hch _ hlt,
    ← getLastD_eq_getElem_last l hne hlt, hcl]

theorem chain_length_le (f : Nat → Nat) (a b : List Nat)
    (hnda : a.Nodup) (hca : List.Chain' (stepR f) a)
    (hcb : List.Chain' (stepR f) b) (hclb : f (b.getLastD 0) = b.headD 0)
    (hnea : a ≠ []) (hneb : b ≠ []) (hh : a.headD 0 = b.headD 0) :
    a.length ≤ b.length := by
  by_contra hc
  push_neg at hc
  have hblt : b.length < a.length := hc
  have hbpos : 0 < b.length := List.length_pos.2 hneb
  have h1 : a[b.length] = f^[b.length] (a.headD 0) :=
    chain_getElem_iterate f a hca b.length hblt
  have h2 : f^[b.length] (b.headD 0) = b.headD 0 := chain_iterate_period f b hcb hclb hneb
  have h3 : a[b.length] = a.headD 0 := by
    rw [h1, hh, h2]
  have h0 : 0 < a.length := by omega
  have h4 : a[0] = a.headD 0 := by
    cases a with
    | nil => exact absurd rfl hnea
    | cons x t => rfl
  have h5 : a[b.length] = a[0] := by rw [h3, h4]
  have := (List.Nodup.getElem_inj_iff hnda).1 h5
  omega

/-- Two nodup closing `f`-chains with the same head are equal. -/
theorem chain_determined (f : Nat → Nat) (l1 l2 : List Nat)
    (hnd1 : l1.Nodup) (hnd2 : l2.Nodup)
    (hc1 : List.Chain' (stepR f) l1) (hc2 : List.Chain' (stepR f) l2)
    (hcl1 : f (l1.getLastD 0) = l1.headD 0) (hcl2 : f (l2.getLastD 0) = l2.headD 0)
    (hne1 : l1 ≠ []) (hne2 : l2 ≠ []) (hh : l1.headD 0 = l2.headD 0) : l1 = l2 := by
  have hlen : l1.length = l2.length :=
    Nat.le_antisymm
      (chain_length_le f l1 l2 hnd1 hc1 hc2 hcl2 hne1 hne2 hh)
      (chain_length_le f l2 l1 hnd2 hc2 hc1 hcl1 hne2 hne1 hh.symm)
  apply List.ext_getElem hlen
  intro n h1 h2
  rw [chain_getElem_iterate f l1 hc1 n h1, chain_getElem_iterate f l2 hc2 n h2, hh]

/-! ## A canonical cycle value re-decomposes to itself -/

theorem cycleValue_keys_nodup (cl : List Nat) (hnd : cl.Nodup) :
    (keysOf (cycleValue cl).pmap).Nodup := by
  rw [keysOf_cycleValue]
  exact hnd

theorem cycleValue_step (cl : List Nat) (hnd : cl.Nodup) :
    ∀ (i : Nat) (h : i < cl.length), applyD (cycleValue cl).pmap cl[i] =
      if i + 1 < cl.length then (cl[i + 1]?).getD 0 else cl.headD 0 := by
  intro i h
  unfold applyD
  rw [mem_lookup _ _ _ (cycleValue_keys_nodup cl hnd) (cycleValue_pair_mem cl i h)]
  rfl

theorem cycleValue_chain_self (cl : List Nat) (hnd : cl.Nodup) (hlen : 1 < cl.length) :
    List.Chain' (stepR (applyD (cycleValue cl).pmap)) cl ∧
    applyD (cycleValue cl).pmap (cl.getLastD 0) = cl.headD 0 ∧
    (∀ kv ∈ (cycleValue cl).pmap, kv.1 ≠ kv.2) := by
  have hne : cl ≠ [] := by
    intro h
    rw [h] at hlen
    simp at hlen
  refine ⟨?_, ?_, ?_⟩
  · rw [List.chain'_iff_get]
    intro i hi
    unfold stepR
    simp only [List.get_eq_getElem]
    rw [cycleValue_step cl hnd i (by omega), if_pos (by omega),
      List.getElem?_eq_getElem (by omega)]
    rfl
  · have hlt : cl.length - 1 < cl.length := by omega
    rw [getLastD_eq_getElem_last cl hne hlt,
      cycleValue_step cl hnd (cl.length - 1) hlt, if_neg (by omega)]
  · intro kv hkv hc
    have hk1 : kv.1 ∈ cl := by
      rw [← keysOf_cycleValue cl]
      exact List.mem_map_of_mem Prod.fst hkv
    rcases List.mem_iff_getElem.1 hk1 with ⟨i, hi, hie⟩
    have happ : applyD (cycleValue cl).pmap kv.1 = kv.2 := by
      unfold applyD
      rw [mem_lookup _ kv.1 kv.2 (cycleValue_keys_nodup cl hnd) hkv]
      rfl
    rw [← hie] at happ
    rw [cycleValue_step cl hnd i hi] at happ
    by_cases h2 : i + 1 < cl.length
    · rw [if_pos h2, List.getElem?_eq_getElem h2, Option.getD_some] at happ
      have he : cl[i] = cl[i + 1] := hie.trans (hc.trans happ.symm)
      have := (List.Nodup.getElem_inj_iff hnd).1 he
      omega
    · rw [if_neg h2] at happ
      have h0 : 0 < cl.length := by omega
      have hhd : cl.headD 0 = cl[0] := by
        cases cl with
        | nil => exact absurd rfl hne
        | cons a t => rfl
      have he : cl[i] = cl[0] := by
        rw [hie, hc, ← happ, hhd]
      have := (List.Nodup.getElem_inj_iff hnd).1 he
      omega

/-- A cycle value fixes everything outside the cycle. -/
theorem cycleValue_apply_not_mem (nc : List Nat) (x : Nat) (hx : x ∉ nc) :
    Permutation.apply (cycleValue nc) x = x := by
  apply isCanon_apply_of_not_mem
  rw [keysOf_cycleValue]
  exact hx

/-- The apply function of any nodup cycle value (min-first or not) is
injective on all of `Nat`. -/
theorem cycleValue_apply_inj (nc : List Nat) (hnd : nc.Nodup) (hlen : 1 < nc.length) :
    ∀ x y, Permutation.apply (cycleValue nc) x = Permutation.apply (cycleValue nc) y →
      x = y := by
  rcases cycleValue_chain_self nc hnd hlen with ⟨hch, hcl, _⟩
  have hclo : ∀ x ∈ nc, applyD (cycleValue nc).pmap x ∈ nc :=
    closedChain_image _ nc hch hcl
  have hinj : ∀ x ∈ nc, ∀ y ∈ nc,
      applyD (cycleValue nc).pmap x = applyD (cycleValue nc).pmap y → x = y :=
    closedChain_injOn _ nc hnd hch hcl
  intro x y he
  unfold Permutation.apply at he
  by_cases hx : x ∈ nc <;> by_cases hy : y ∈ nc
  · exact hinj x hx y hy he
  · exfalso
    have h1 := hclo x hx
    rw [he] at h1
    rw [show applyD (cycleValue nc).pmap y = y from cycleValue_apply_not_mem nc y hy] at h1
    exact hy h1
  · exfalso
    have h1 := hclo y hy
    rw [← he] at h1
    rw [show applyD (cycleValue nc).pmap x = x from cycleValue_apply_not_mem nc x hx] at h1
    exact hx h1
  · rw [show applyD (cycleValue nc).pmap x = x from cycleValue_apply_not_mem nc x hx,
      show applyD (cycleValue nc).pmap y = y from cycleValue_apply_not_mem nc y hy] at he
    exact he

/-- Re-decomposing the stored map of a canonical (min-first, nodup) cycle
reproduces the same cycle value: `Permutation(dict(cycle)) == cycle`. -/
theorem new_cycleValue (cl : List Nat) (hnd : cl.Nodup) (hlen : 1 < cl.length)
    (hmin : ∀ x ∈ cl, cl.headD 0 ≤ x) :
    Permutation.new (cycleValue cl).pmap = .ok (cycleValue cl) := by
  obtain ⟨hch, hclz, hnf⟩ := cycleValue_chain_self cl hnd hlen
  have hknd : (keysOf (cycleValue cl).pmap).Nodup := cycleValue_keys_nodup cl hnd
  have hpy : pyDict (cycleValue cl).pmap = (cycleValue cl).pmap := pyDict_eq_self _ hknd
  have hsf : stripFixed (cycleValue cl).pmap = (cycleValue cl).pmap := by
    unfold stripFixed
    rw [List.filter_eq_self]
    intro kv hkv
    rw [decide_eq_true_eq]
    exact hnf kv hkv
  have hne : cl ≠ [] := by
    intro h
    rw [h] at hlen
    simp at hlen
  have hkeq : (cycleValue cl).pmap.map Prod.fst = cl := keysOf_cycleValue cl
  have hmoved : ∀ x ∈ sortNat cl, applyD (cycleValue cl).pmap x ≠ x := by
    intro x hx
    have hxc : x ∈ cl := (sortNat_perm cl).mem_iff.1 hx
    have hxk : x ∈ keysOf (cycleValue cl).pmap := by
      rw [keysOf_cycleValue]
      exact hxc
    rcases lookup_eq_some_of_ne_none _ x (by
      rw [Ne, lookup_eq_none_iff]
      intro hcn
      exact hcn hxk) with ⟨v, hv⟩
    have : (x, v) ∈ (cycleValue cl).pmap := lookup_mem _ _ _ hv
    unfold applyD
    rw [hv]
    intro hcon
    exact hnf (x, v) this (by simpa using hcon.symm)
  have hsuc : ∃ L, decompose (applyD (cycleValue cl).pmap)
      ((sortNat cl).length + 1) (sortNat cl) = .ok L := by
    apply decompose_ok_of_inj
    · exact sortNat_nodup cl hnd
    · intro x hx
      exact (sortNat_perm cl).symm.mem_iff.1
        (closedChain_image _ cl hch hclz x ((sortNat_perm cl).mem_iff.1 hx))
    · intro x hx y hy he
      exact closedChain_injOn _ cl hnd hch hclz x ((sortNat_perm cl).mem_iff.1 hx)
        y ((sortNat_perm cl).mem_iff.1 hy) he
    · omega
  rcases hsuc with ⟨L, hL⟩
  have hfacts := decompose_ok_facts _ _ _ _ (sortNat_sorted cl) (sortNat_nodup cl hnd)
    hmoved hL
  -- the decomposition has exactly one orbit, namely `cl` itself
  have hLeq : L = [cl] := by
    cases L with
    | nil =>
      exfalso
      have : sortNat cl = [] := hfacts.flat_perm.symm.eq_nil
      have h2 := sortNat_perm cl
      rw [this] at h2
      exact hne h2.symm.eq_nil
    | cons c1 Lt =>
      have hc1 : c1 ∈ c1 :: Lt := List.mem_cons_self c1 Lt
      have hc1ne : c1 ≠ [] := by
        intro h
        have := hfacts.lens c1 hc1
        rw [h] at this
        simp at this
      -- the head of the first orbit is the global minimum, i.e. `cl`'s head
      have hminc1 : listMin c1 = listMin cl := by
        apply Nat.le_antisymm
        · have : listMin cl ∈ cl := listMin_mem cl hne
          have h2 : listMin cl ∈ List.flatten (c1 :: Lt) :=
            hfacts.flat_perm.mem_iff.2 ((sortNat_perm cl).symm.mem_iff.1 this)
          rcases List.mem_flatten.1 h2 with ⟨c, hc, hmemc⟩
          rcases List.mem_cons.1 hc with h3 | h3
          · exact Nat.le_trans (by rw [h3]) (listMin_le c _ hmemc)
          · have h4 := (List.sorted_cons.1 hfacts.min_sorted).1 c h3
            exact Nat.le_trans h4 (listMin_le c _ hmemc)
        · apply listMin_le
          have : listMin c1 ∈ c1 := listMin_mem c1 hc1ne
          have h2 : listMin c1 ∈ List.flatten (c1 :: Lt) :=
            List.mem_flatten.2 ⟨c1, hc1, this⟩
          exact (sortNat_perm cl).mem_iff.1 (hfacts.flat_perm.mem_iff.1 h2)
      have hhead1 : c1.headD 0 = cl.headD 0 := by
        rw [← listMin_eq_headD c1 hc1ne (hfacts.head_min c1 hc1),
          ← listMin_eq_headD cl hne hmin, hminc1]
      have hceq : c1 = cl := by
        apply chain_determined (applyD (cycleValue cl).pmap) c1 cl
          (hfacts.nodups c1 hc1) hnd (hfacts.chains c1 hc1) hch
          (hfacts.closing c1 hc1) hclz hc1ne hne hhead1
      subst hceq
      -- the single orbit already covers everything, so no other orbits exist
      cases Lt with
      | nil => rfl
      | cons c2 Lr =>
        exfalso
        have hflat := hfacts.flat_perm
        have hlenf := hflat.length_eq
        rw [List.flatten_cons, List.flatten_cons] at hlenf
        have h2 : (sortNat c1).length = c1.length := (sortNat_perm c1).length_eq
        rw [List.length_append, List.length_append, h2] at hlenf
        have h3 := hfacts.lens c2 (List.mem_cons_of_mem c1 (List.mem_cons_self c2 Lr))
        omega
  subst hLeq
  -- finish the computation of `new`
  unfold Permutation.new
  dsimp only
  rw [hpy, hsf, hkeq, hL]
  dsimp only
  have hsort1 : sortByMin [cl] = [cl] := rfl
  rw [hsort1]

/-! ## Generic `foldlM` lemmas in the `Except` monad -/

theorem foldlM_except_invariant {α β : Type} (step : β → α → Except PermError β)
    (P : β → Prop) :
    ∀ (l : List α) (init res : β),
      l.foldlM step init = .ok res → P init →
      (∀ acc x r, P acc → x ∈ l → step acc x = .ok r → P r) →
      P res := by
  intro l
  induction l with
  | nil =>
    intro init res h hP _
    have : init = res := by
      unfold List.foldlM at h
      injection h
    rw [← this]
    exact hP
  | cons a t ih =>
    intro init res h hP hstep
    rw [List.foldlM_cons] at h
    cases hs : step init a with
    | error e =>
      rw [hs] at h
      exact absurd h (by simp [Bind.bind, Except.bind])
    | ok r1 =>
      rw [hs] at h
      have h2 : t.foldlM step r1 = .ok res := h
      exact ih r1 res h2 (hstep init a r1 hP (List.mem_cons_self a t) hs)
        (fun acc x r hacc hx => hstep acc x r hacc (List.mem_cons_of_mem a hx))

theorem foldlM_except_ok {α β : Type} (step : β → α → Except PermError β)
    (P : β → Prop) :
    ∀ (l : List α) (init : β), P init →
      (∀ acc x, P acc → x ∈ l → ∃ r, step acc x = .ok r ∧ P r) →
      ∃ res, l.foldlM step init = .ok res ∧ P res := by
  intro l
  induction l with
  | nil =>
    intro init h _
    exact ⟨init, rfl, h⟩
  | cons a t ih =>
    intro init h hstep
    rcases hstep init a h (List.mem_cons_self a t) with ⟨r, hr, hPr⟩
    rcases ih r hPr (fun acc x hacc hx => hstep acc x hacc (List.mem_cons_of_mem a hx))
      with ⟨res, hres, hPres⟩
    refine ⟨res, ?_, hPres⟩
    rw [List.foldlM_cons, hr]
    exact hres

/-! ## Analysis of `Permutation.cycle` -/

theorem new_nil_ok : Permutation.new [] = .ok identityValue := rfl

theorem headD_eq_getElem_zero (l : List Nat) (h : l ≠ []) (h0 : 0 < l.length) :
    l.headD 0 = l[0] := by
  cases l with
  | nil => exact absurd rfl h
  | cons a t => rfl

theorem listMin_perm_eq (l1 l2 : List Nat) (h : l1.Perm l2) (hne : l1 ≠ []) :
    listMin l1 = listMin l2 := by
  have hne2 : l2 ≠ [] := by
    intro hc
    rw [hc] at h
    exact hne h.eq_nil
  apply Nat.le_antisymm
  · exact listMin_le l1 _ (h.mem_iff.2 (listMin_mem l2 hne2))
  · exact listMin_le l2 _ (h.mem_iff.1 (listMin_mem l1 hne))

/-- If building the adjacency dict of the cut cycle sequence loses no
entries, the sequence had no duplicates. -/
theorem args_nodup_of_mapping_full (args2 : List Nat)
    (h : ¬ (pyDict (args2.zip (args2.drop 1 ++ args2.take 1))).length < args2.length) :
    args2.Nodup := by
  have hkz : keysOf (args2.zip (args2.drop 1 ++ args2.take 1)) = args2 :=
    List.map_fst_zip args2 _ (by rw [cycleValue_rot_length])
  have hnd : (keysOf (pyDict (args2.zip (args2.drop 1 ++ args2.take 1)))).Nodup :=
    pyDict_keys_nodup _
  have hfin : (keysOf (pyDict (args2.zip (args2.drop 1 ++ args2.take 1)))).toFinset =
      args2.toFinset := by
    apply Finset.ext
    intro a
    rw [List.mem_toFinset, List.mem_toFinset, mem_keysOf_pyDict, hkz]
  have hlen1 : (pyDict (args2.zip (args2.drop 1 ++ args2.take 1))).length =
      (keysOf (pyDict (args2.zip (args2.drop 1 ++ args2.take 1)))).length := by
    unfold keysOf
    rw [List.length_map]
  have hlen2 : (keysOf (pyDict (args2.zip (args2.drop 1 ++ args2.take 1)))).length =
      args2.toFinset.card := by
    rw [← hfin, List.card_toFinset, List.dedup_eq_self.2 hnd]
  have hle : args2.toFinset.card ≤ args2.length := List.toFinset_card_le args2
  have heq : args2.toFinset.card = args2.length := by omega
  have hdl : args2.dedup.length = args2.length := by
    rw [← List.card_toFinset]
    exact heq
  have := List.Sublist.eq_of_length (List.dedup_sublist args2) hdl
  rw [← this]
  exact List.nodup_dedup args2

/-- Any value produced by `Permutation.cycle` is also a `Permutation.new`
output (the canonical-form invariant for the cycle construction path). -/
theorem cycle_ok_isNewOutput (l : List Nat) (p : Permutation)
    (h : Permutation.cycle l = .ok p) : ∃ l2, Permutation.new l2 = .ok p := by
  unfold Permutation.cycle at h
  by_cases hlen : l.length ≤ 1
  · rw [if_pos hlen] at h
    exact ⟨[], h⟩
  · rw [if_neg hlen] at h
    dsimp only at h
    split at h
    next hmap => exact absurd h (by simp)
    next hmap =>
      split at h
      next hrep => exact absurd h (by simp)
      next hrep =>
        injection h with h
        -- the validated, rotated sequence
        have hnd : (l.take (repeatIndex l)).Nodup := args_nodup_of_mapping_full _ hmap
        by_cases hrot : 1 < ((l.take (repeatIndex l)).drop
            ((l.take (repeatIndex l)).findIdx fun x => decide (x = listMin (l.take (repeatIndex l)))) ++
            (l.take (repeatIndex l)).take
            ((l.take (repeatIndex l)).findIdx fun x => decide (x = listMin (l.take (repeatIndex l))))).length
        · rw [← h]
          unfold newFromCycle
          rw [if_pos hrot]
          set args2 := l.take (repeatIndex l) with hargs2
          set li := args2.findIdx (fun x => decide (x = listMin args2)) with hli
          set rot := args2.drop li ++ args2.take li with hrotdef
          have hperm : rot.Perm args2 := by
            rw [hrotdef]
            have h1 := @List.perm_append_comm _ (args2.drop li) (args2.take li)
            have h2 : args2.take li ++ args2.drop li = args2 := List.take_append_drop li args2
            rw [h2] at h1
            exact h1
          have hrotnd : rot.Nodup := hperm.symm.nodup hnd
          have hrotne : rot ≠ [] := by
            intro hc
            rw [hc] at hrot
            simp at hrot
          have hargs2ne : args2 ≠ [] := by
            intro hc
            rw [hc] at hperm
            exact hrotne hperm.eq_nil
          have hlib : li < args2.length := by
            apply List.findIdx_lt_length_of_exists
            exact ⟨listMin args2, listMin_mem args2 hargs2ne, by simp⟩
          have hdropne : (args2.drop li).length ≠ 0 := by
            rw [List.length_drop]
            omega
          have hhead : rot.headD 0 = listMin args2 := by
            rw [hrotdef]
            have h0 : 0 < (args2.drop li ++ args2.take li).length := by
              rw [List.length_append]
              omega
            rw [headD_eq_getElem_zero _ (by
              intro hc
              rw [hc] at h0
              simp at h0) h0]
            rw [List.getElem_append]
            rw [dif_pos (by omega)]
            rw [List.getElem_drop]
            have := @List.findIdx_getElem _ (fun x => decide (x = listMin args2))
              args2 hlib
            rw [decide_eq_true_eq] at this
            have h2 : li + 0 = li := rfl
            simp only [Nat.add_zero]
            exact this
          have hmin : ∀ x ∈ rot, rot.headD 0 ≤ x := by
            intro x hx
            rw [hhead, ← listMin_perm_eq rot args2 hperm hrotne]
            exact listMin_le rot x hx
          exact ⟨(cycleValue rot).pmap, new_cycleValue rot hrotnd hrot hmin⟩
        · rw [← h]
          unfold newFromCycle
          rw [if_neg hrot]
          exact ⟨[], new_nil_ok⟩

/-! ## Every construction path lands in the image of `Permutation.new` -/

def IsNewOutput (p : Permutation) : Prop := ∃ l, Permutation.new l = .ok p

theorem isNewOutput_isCanon (p : Permutation) (h : IsNewOutput p) : IsCanon p := by
  rcases h with ⟨l, hl⟩
  exact (new_ok_main l p hl).2

theorem mul_ok_isNewOutput (p q r : Permutation)
    (h : Permutation.mul p q = .ok r) : IsNewOutput r :=
  ⟨mulDict p q, by rw [← mul_eq_new]; exact h⟩

theorem pow_ok_isNewOutput (p r : Permutation) (e : Int)
    (h : Permutation.pow p e = .ok r) : IsNewOutput r := by
  unfold Permutation.pow at h
  apply foldlM_except_invariant _ IsNewOutput _ _ _ h ⟨[], new_nil_ok⟩
  intro acc c r2 hacc _ hstep
  dsimp only at hstep
  by_cases hzero : e % (c.length : Int) = 0
  · rw [if_pos hzero] at hstep
    injection hstep with hstep
    rw [← hstep]
    exact hacc
  · rw [if_neg hzero] at hstep
    cases hd : decompose (fun i => (i + (e % (c.length : Int)).toNat) % c.length)
        (c.length + 1) (List.range c.length) with
    | error err =>
      rw [hd] at hstep
      exact absurd hstep (by simp)
    | ok idxOrbits =>
      rw [hd] at hstep
      dsimp only at hstep
      apply foldlM_except_invariant _ IsNewOutput _ _ _ hstep hacc
      intro acc2 idxs r3 hacc2 _ hstep2
      by_cases hlen : (idxs.map fun i => c.getD i 0).length > 1
      · rw [if_pos hlen] at hstep2
        exact mul_ok_isNewOutput _ _ _ hstep2
      · rw [if_neg hlen] at hstep2
        injection hstep2 with hstep2
        rw [← hstep2]
        exact hacc2

theorem product_ok_isNewOutput (l : List Permutation) (r : Permutation)
    (h : Permutation.product l = .ok r) : IsNewOutput r := by
  unfold Permutation.product at h
  apply foldlM_except_invariant _ IsNewOutput _ _ _ h ⟨[], new_nil_ok⟩
  intro acc x r2 _ _ hstep
  exact mul_ok_isNewOutput _ _ _ hstep

theorem constructed_isNewOutput (p : Permutation) (h : Constructed p) :
    IsNewOutput p := by
  induction h with
  | ofNew l p hl => exact ⟨l, hl⟩
  | ofCycle l p hl => exact cycle_ok_isNewOutput l p hl
  | ofMul p q r _ _ hm _ _ => exact mul_ok_isNewOutput p q r hm
  | ofPow p r e _ hm _ => exact pow_ok_isNewOutput p r e hm
  | ofProduct l r _ hm _ => exact product_ok_isNewOutput l r hm

theorem constructed_isCanon (p : Permutation) (h : Constructed p) : IsCanon p :=
  isNewOutput_isCanon p (constructed_isNewOutput p h)

/-! ## Determinism of `Permutation.new` in the represented function -/

theorem new_unfold (l : List (Nat × Nat)) :
    Permutation.new l =
      match decompose (applyD (strippedOf l))
          ((sortNat (keysOf (strippedOf l))).length + 1)
          (sortNat (keysOf (strippedOf l))) with
      | .error e => .error e
      | .ok orbits =>
        match sortByMin orbits with
        | [c] => .ok (cycleValue c)
        | sorted => .ok ⟨strippedOf l, sorted, pyLcm (sorted.map List.length)⟩ := rfl

theorem sortKeys_eq_of_applyD_eq (l1 l2 : List (Nat × Nat))
    (h : ∀ k, applyD (strippedOf l1) k = applyD (strippedOf l2) k) :
    sortNat (keysOf (strippedOf l1)) = sortNat (keysOf (strippedOf l2)) := by
  apply sortNat_eq_of_perm
  rw [List.perm_ext_iff_of_nodup (strippedOf_keys_nodup l1) (strippedOf_keys_nodup l2)]
  intro a
  rw [mem_keysOf_strippedOf, mem_keysOf_strippedOf, h a]

/-- Two construction inputs that represent the same function (after fixed
points are dropped) go through the very same decomposition. -/
theorem new_align (l1 l2 : List (Nat × Nat))
    (h : ∀ k, applyD (strippedOf l1) k = applyD (strippedOf l2) k) :
    (∃ e, Permutation.new l1 = .error e ∧ Permutation.new l2 = .error e) ∨
    (∃ cl, Permutation.new l1 = .ok (cycleValue cl) ∧
      Permutation.new l2 = .ok (cycleValue cl)) ∨
    (∃ L, Permutation.new l1 = .ok ⟨strippedOf l1, L, pyLcm (L.map List.length)⟩ ∧
      Permutation.new l2 = .ok ⟨strippedOf l2, L, pyLcm (L.map List.length)⟩ ∧
      (∀ cl, L ≠ [cl])) := by
  have hfun : applyD (strippedOf l1) = applyD (strippedOf l2) := funext h
  have hu : sortNat (keysOf (strippedOf l1)) = sortNat (keysOf (strippedOf l2)) :=
    sortKeys_eq_of_applyD_eq l1 l2 h
  have hd2eq : decompose (applyD (strippedOf l2))
      ((sortNat (keysOf (strippedOf l2))).length + 1)
      (sortNat (keysOf (strippedOf l2))) =
      decompose (applyD (strippedOf l1))
      ((sortNat (keysOf (strippedOf l1))).length + 1)
      (sortNat (keysOf (strippedOf l1))) := by
    rw [hfun, hu]
  rw [new_unfold l1, new_unfold l2, hd2eq]
  cases hd : decompose (applyD (strippedOf l1))
      ((sortNat (keysOf (strippedOf l1))).length + 1)
      (sortNat (keysOf (strippedOf l1))) with
  | error e =>
    left
    exact ⟨e, rfl, rfl⟩
  | ok L =>
    dsimp only
    cases hL : sortByMin L with
    | nil =>
      right; right
      exact ⟨[], rfl, rfl, by simp⟩
    | cons c1 Lt =>
      cases Lt with
      | nil =>
        right; left
        exact ⟨c1, rfl, rfl⟩
      | cons c2 Lr =>
        right; right
        exact ⟨c1 :: c2 :: Lr, rfl, rfl, by simp⟩

/-- Idempotence of construction: feeding the stored map of a constructed
value back into `Permutation.__new__` returns the same value. -/
theorem new_roundTrip (l : List (Nat × Nat)) (p : Permutation)
    (hok : Permutation.new l = .ok p) : Permutation.new p.pmap = .ok p := by
  rcases new_ok_main l p hok with ⟨happ, hcan⟩
  have hpy : pyDict p.pmap = p.pmap := pyDict_eq_self _ hcan.keys_nodup
  have hsf : strippedOf p.pmap = p.pmap := by
    unfold strippedOf
    rw [hpy]
    unfold stripFixed
    rw [List.filter_eq_self]
    intro kv hkv
    rw [decide_eq_true_eq]
    exact hcan.no_fixed kv hkv
  have hfun : ∀ k, applyD (strippedOf l) k = applyD (strippedOf p.pmap) k := by
    intro k
    rw [hsf, ← happ k]
    rfl
  rcases new_align l p.pmap hfun with ⟨e, h1, _⟩ | ⟨cl, h1, h2⟩ | ⟨L, h1, h2, _⟩
  · rw [hok] at h1
    exact absurd h1 (by simp)
  · rw [hok] at h1
    injection h1 with h1
    rw [h2, h1]
  · rw [hok] at h1
    injection h1 with h1
    rw [h2, hsf]
    have hpm : p.pmap = strippedOf l := by rw [h1]
    rw [hpm, h1]

/-! ## Identity absorption helpers -/

theorem apply_identityValue (k : Nat) : Permutation.apply identityValue k = k := rfl

theorem mulDict_identity_left (p : Permutation) (h : (keysOf p.pmap).Nodup) :
    mulDict identityValue p = p.pmap :=
  pyDict_eq_self p.pmap h

theorem mulDict_identity_right (p : Permutation) :
    mulDict p identityValue = p.pmap := rfl

theorem mul_identity_left (p : Permutation) (h : IsNewOutput p) :
    Permutation.mul identityValue p = .ok p := by
  rcases h with ⟨l, hl⟩
  rw [mul_eq_new, mulDict_identity_left p (isNewOutput_isCanon p ⟨l, hl⟩).keys_nodup]
  exact new_roundTrip l p hl

theorem mul_identity_right (p : Permutation) (h : IsNewOutput p) :
    Permutation.mul p identityValue = .ok p := by
  rcases h with ⟨l, hl⟩
  rw [mul_eq_new, mulDict_identity_right]
  exact new_roundTrip l p hl

/-! ## Claims -/

/-- C2: `apply` (`__getitem__` / `__call__`) is total: it returns the stored
image when the key is recorded, and the key itself otherwise; in particular
for the cycle `(1,2,3)`: `apply(1)=2`, `apply(2)=3`, `apply(3)=1`,
`apply(4)=4`. -/
theorem claim_C2_apply_total :
    (∀ (p : Permutation) (k v : Nat), lookup p.pmap k = some v →
      Permutation.apply p k = v) ∧
    (∀ (p : Permutation) (k : Nat), lookup p.pmap k = none →
      Permutation.apply p k = k) ∧
    (∃ p, Permutation.cycle [1, 2, 3] = .ok p ∧ Permutation.apply p 1 = 2 ∧
      Permutation.apply p 2 = 3 ∧ Permutation.apply p 3 = 1 ∧
      Permutation.apply p 4 = 4) := by
  refine ⟨?_, ?_, ?_⟩
  · intro p k v h
    unfold Permutation.apply applyD
    rw [h]
    rfl
  · intro p k h
    unfold Permutation.apply applyD
    rw [h]
    rfl
  · exact ⟨cycleValue [1, 2, 3], rfl, rfl, rfl, rfl, rfl⟩

theorem claim_C2_witness :
    Permutation.apply (cycleValue [1, 2, 3]) 1 = 2 ∧
    Permutation.apply (cycleValue [1, 2, 3]) 5 = 5 :=
  ⟨claim_C2_apply_total.1 (cycleValue [1, 2, 3]) 1 2 rfl,
   claim_C2_apply_total.2.1 (cycleValue [1, 2, 3]) 5 rfl⟩

/-- C10: `orbit(key)` for a key in none of the orbits returns the identity
permutation (a value with zero orbits and order 1), not a failure or foreign
sentinel. -/
theorem claim_C10_orbit_identity (p : Permutation) (k : Nat)
    (h : ∀ c ∈ p.orbitsL, k ∉ c) :
    Permutation.orbit p k = identityValue ∧ identityValue.orbitsL = [] ∧
      identityValue.order = 1 := by
  refine ⟨?_, rfl, rfl⟩
  unfold Permutation.orbit Permutation.orbitValues
  have hnone : (p.orbitsL.map cycleValue).find?
      (fun o => o.pmap.any (fun kv => decide (kv.1 = k))) = none := by
    rw [List.find?_eq_none]
    intro o ho
    rcases List.mem_map.1 ho with ⟨c, hc, hoe⟩
    intro hany
    rw [← hoe] at hany
    rcases List.any_eq_true.1 hany with ⟨kv, hkv, he⟩
    rw [decide_eq_true_eq] at he
    apply h c hc
    rw [← he, ← keysOf_cycleValue c]
    exact List.mem_map_of_mem Prod.fst hkv
  rw [hnone]
  rfl

theorem claim_C10_witness :
    Permutation.orbit (cycleValue [1, 2, 3]) 7 = identityValue :=
  (claim_C10_orbit_identity (cycleValue [1, 2, 3]) 7 (by decide)).1

/-- C8: the stored mapping of any constructed permutation holds no
fixed-point pair, and its key set is exactly the moved support. -/
theorem claim_C8_no_stored_fixed_points (p : Permutation) (h : Constructed p) :
    (∀ kv ∈ p.pmap, kv.1 ≠ kv.2) ∧
    (∀ k, (lookup p.pmap k).isSome = true ↔ Permutation.apply p k ≠ k) := by
  have hc := constructed_isCanon p h
  refine ⟨hc.no_fixed, ?_⟩
  intro k
  rw [lookup_isSome_iff]
  exact isCanon_moved_iff p hc k

theorem claim_C8_witness :
    (∀ kv ∈ (cycleValue [1, 2, 3]).pmap, kv.1 ≠ kv.2) ∧
    ((lookup (cycleValue [1, 2, 3]).pmap 2).isSome = true ↔
      Permutation.apply (cycleValue [1, 2, 3]) 2 ≠ 2) :=
  ⟨(claim_C8_no_stored_fixed_points (cycleValue [1, 2, 3])
      (Constructed.ofCycle [1, 2, 3] _ rfl)).1,
   (claim_C8_no_stored_fixed_points (cycleValue [1, 2, 3])
      (Constructed.ofCycle [1, 2, 3] _ rfl)).2 2⟩

/-- C9: `product` is the pairwise `*`-fold starting from the identity;
zero terms give the identity, and a single constructed term is returned
re-decomposed (hence unchanged, being already canonical). -/
theorem claim_C9_product_is_fold :
    (∀ args : List Permutation,
      Permutation.product args = args.foldlM Permutation.mul identityValue) ∧
    Permutation.product [] = .ok identityValue ∧
    (∀ a, Constructed a → Permutation.product [a] = .ok a) := by
  refine ⟨fun args => rfl, rfl, ?_⟩
  intro a ha
  have h := constructed_isNewOutput a ha
  unfold Permutation.product
  rw [List.foldlM_cons, mul_identity_left a h]
  rfl

theorem claim_C9_witness :
    Permutation.product [cycleValue [1, 2, 3]] = .ok (cycleValue [1, 2, 3]) :=
  claim_C9_product_is_fold.2.2 (cycleValue [1, 2, 3])
    (Constructed.ofCycle [1, 2, 3] _ rfl)

/-- C6: the identity is absorbed by multiplication on either side, and any
integer power of the identity is the identity. -/
theorem claim_C6_identity_absorption :
    (∀ p, Constructed p → Permutation.mul identityValue p = .ok p ∧
      Permutation.mul p identityValue = .ok p) ∧
    (∀ e : Int, Permutation.pow identityValue e = .ok identityValue) := by
  constructor
  · intro p h
    exact ⟨mul_identity_left p (constructed_isNewOutput p h),
      mul_identity_right p (constructed_isNewOutput p h)⟩
  · intro e
    rfl

theorem claim_C6_witness :
    Permutation.mul identityValue (cycleValue [1, 2, 3]) = .ok (cycleValue [1, 2, 3]) ∧
    Permutation.mul (cycleValue [1, 2, 3]) identityValue = .ok (cycleValue [1, 2, 3]) ∧
    Permutation.pow identityValue (-5) = .ok identityValue :=
  ⟨(claim_C6_identity_absorption.1 (cycleValue [1, 2, 3])
      (Constructed.ofCycle [1, 2, 3] _ rfl)).1,
   (claim_C6_identity_absorption.1 (cycleValue [1, 2, 3])
      (Constructed.ofCycle [1, 2, 3] _ rfl)).2,
   claim_C6_identity_absorption.2 (-5)⟩

/-! ## Equality / hash of canonical values -/

theorem isCanon_lookup_eq_some_iff (p : Permutation) (hc : IsCanon p) (k v : Nat) :
    lookup p.pmap k = some v ↔ (Permutation.apply p k = v ∧ v ≠ k) := by
  constructor
  · intro h
    refine ⟨?_, ?_⟩
    · unfold Permutation.apply applyD
      rw [h]
      rfl
    · have := hc.no_fixed (k, v) (lookup_mem _ _ _ h)
      exact fun hv => this (by rw [hv])
  · rintro ⟨ha, hv⟩
    have hk : k ∈ keysOf p.pmap := (isCanon_moved_iff p hc k).2 (by rw [ha]; exact hv)
    rcases lookup_eq_some_of_ne_none p.pmap k (by
      rw [Ne, lookup_eq_none_iff]
      intro hcn
      exact hcn hk) with ⟨w, hw⟩
    have hwv : Permutation.apply p k = w := by
      unfold Permutation.apply applyD
      rw [hw]
      rfl
    rw [hw, ← ha, hwv]

theorem isCanon_pyEq_pyHash (p q : Permutation) (hp : IsCanon p) (hq : IsCanon q)
    (h : ∀ k, Permutation.apply p k = Permutation.apply q k) :
    Permutation.pyEq p q = true ∧ Permutation.pyHash p = Permutation.pyHash q := by
  have hdir : ∀ (a b : Permutation), IsCanon a → IsCanon b →
      (∀ k, Permutation.apply a k = Permutation.apply b k) →
      ∀ kv ∈ a.pmap, lookup b.pmap kv.1 = some kv.2 := by
    intro a b hca hcb hab kv hkv
    have hla : lookup a.pmap kv.1 = some kv.2 := mem_lookup _ kv.1 kv.2 hca.keys_nodup hkv
    rcases (isCanon_lookup_eq_some_iff a hca kv.1 kv.2).1 hla with ⟨ha, hv⟩
    apply (isCanon_lookup_eq_some_iff b hcb kv.1 kv.2).2
    refine ⟨?_, hv⟩
    rw [← hab kv.1]
    exact ha
  constructor
  · unfold Permutation.pyEq dictEqB
    rw [Bool.and_eq_true, List.all_eq_true, List.all_eq_true]
    constructor
    · intro kv hkv
      rw [decide_eq_true_eq]
      exact hdir p q hp hq h kv hkv
    · intro kv hkv
      rw [decide_eq_true_eq]
      exact hdir q p hq hp (fun k => (h k).symm) kv hkv
  · unfold Permutation.pyHash
    apply Finset.ext
    intro a
    rw [List.mem_toFinset, List.mem_toFinset]
    have h1 := isCanon_moved_iff p hp a
    have h2 := isCanon_moved_iff q hq a
    unfold keysOf at h1 h2
    rw [h1, h2, h a]

/-- C1: canonical-form invariant.  Any two constructed values representing
the same function have identical orbit tuples, identical order, identical
hash, and compare equal; in particular `cycle(1,2,3)` and
`Permutation({1:2,2:3,3:1})` are the same value. -/
theorem claim_C1_canonical_form (p q : Permutation)
    (hp : Constructed p) (hq : Constructed q)
    (h : ∀ k, Permutation.apply p k = Permutation.apply q k) :
    p.orbitsL = q.orbitsL ∧ p.order = q.order ∧
    Permutation.pyHash p = Permutation.pyHash q ∧
    Permutation.pyEq p q = true ∧
    Permutation.cycle [1, 2, 3] = Permutation.new [(1, 2), (2, 3), (3, 1)] := by
  rcases constructed_isNewOutput p hp with ⟨l1, hl1⟩
  rcases constructed_isNewOutput q hq with ⟨l2, hl2⟩
  have hcp := isNewOutput_isCanon p ⟨l1, hl1⟩
  have hcq := isNewOutput_isCanon q ⟨l2, hl2⟩
  rcases new_ok_main l1 p hl1 with ⟨happ1, _⟩
  rcases new_ok_main l2 q hl2 with ⟨happ2, _⟩
  have hfun : ∀ k, applyD (strippedOf l1) k = applyD (strippedOf l2) k := by
    intro k
    rw [← happ1 k, ← happ2 k]
    exact h k
  have heqhash := isCanon_pyEq_pyHash p q hcp hcq h
  have horb : p.orbitsL = q.orbitsL ∧ p.order = q.order := by
    rcases new_align l1 l2 hfun with ⟨e, h1, _⟩ | ⟨cl, h1, h2⟩ | ⟨L, h1, h2, _⟩
    · rw [hl1] at h1
      exact absurd h1 (by simp)
    · rw [hl1] at h1
      rw [hl2] at h2
      injection h1 with h1
      injection h2 with h2
      rw [h1, h2]
      exact ⟨rfl, rfl⟩
    · rw [hl1] at h1
      rw [hl2] at h2
      injection h1 with h1
      injection h2 with h2
      rw [h1, h2]
      exact ⟨rfl, rfl⟩
  exact ⟨horb.1, horb.2, heqhash.2, heqhash.1, rfl⟩

theorem claim_C1_witness :
    (cycleValue [1, 2, 3]).orbitsL = (cycleValue [1, 2, 3]).orbitsL ∧
    (cycleValue [1, 2, 3]).order = (cycleValue [1, 2, 3]).order ∧
    Permutation.pyHash (cycleValue [1, 2, 3]) = Permutation.pyHash (cycleValue [1, 2, 3]) ∧
    Permutation.pyEq (cycleValue [1, 2, 3]) (cycleValue [1, 2, 3]) = true ∧
    Permutation.cycle [1, 2, 3] = Permutation.new [(1, 2), (2, 3), (3, 1)] :=
  claim_C1_canonical_form (cycleValue [1, 2, 3]) (cycleValue [1, 2, 3])
    (Constructed.ofCycle [1, 2, 3] _ rfl)
    (Constructed.ofNew [(1, 2), (2, 3), (3, 1)] _ rfl)
    (fun _ => rfl)

/-- C3: `p * q` is the function composition `p ∘ q` — it applies `q` first
and then `p` on every key — and the result is re-decomposed into canonical
form with the composition's fixed points stripped. -/
theorem claim_C3_mul_is_composition (p q : Permutation)
    (hp : Constructed p) (hq : Constructed q) :
    ∃ r, Permutation.mul p q = .ok r ∧
      (∀ k, Permutation.apply r k = Permutation.apply p (Permutation.apply q k)) ∧
      (∃ l, Permutation.new l = .ok r) ∧
      (∀ kv ∈ r.pmap, kv.1 ≠ kv.2) := by
  rcases mul_ok p q (constructed_isCanon p hp) (constructed_isCanon q hq) with
    ⟨r, h1, h2, h3⟩
  exact ⟨r, h1, h2, mul_ok_isNewOutput p q r h1, h3.no_fixed⟩

theorem claim_C3_witness :
    ∃ r, Permutation.mul (cycleValue [1, 2]) (cycleValue [2, 3]) = .ok r ∧
      (∀ k, Permutation.apply r k =
        Permutation.apply (cycleValue [1, 2]) (Permutation.apply (cycleValue [2, 3]) k)) ∧
      (∃ l, Permutation.new l = .ok r) ∧
      (∀ kv ∈ r.pmap, kv.1 ≠ kv.2) :=
  claim_C3_mul_is_composition (cycleValue [1, 2]) (cycleValue [2, 3])
    (Constructed.ofCycle [1, 2] _ rfl) (Constructed.ofCycle [2, 3] _ rfl)

/-! ## Non-injective inputs are rejected -/

/-- A successful construction certifies that the stripped dict was a
bijection of its own support. -/
theorem new_ok_bij_stripped (l : List (Nat × Nat)) (p : Permutation)
    (hok : Permutation.new l = .ok p) : BijOnSupport (strippedOf l) := by
  rcases new_ok_main l p hok with ⟨happ, hcan⟩
  have hclo := orbitFacts_closure _ _ _ hcan.facts
  have hinj := isCanon_apply_inj p hcan
  constructor
  · intro kv hkv
    have hl : lookup (strippedOf l) kv.1 = some kv.2 :=
      mem_lookup _ kv.1 kv.2 (strippedOf_keys_nodup l) hkv
    have ha : applyD (strippedOf l) kv.1 = kv.2 := by
      unfold applyD
      rw [hl]
      rfl
    apply (mem_keysOf_strippedOf l kv.2).2
    rw [← happ kv.2]
    have hk1 : kv.1 ∈ keysOf (strippedOf l) := List.mem_map_of_mem Prod.fst hkv
    have hk1m : Permutation.apply p kv.1 ≠ kv.1 := by
      rw [happ kv.1]
      exact (mem_keysOf_strippedOf l kv.1).1 hk1
    have hk1p : kv.1 ∈ keysOf p.pmap := (isCanon_moved_iff p hcan kv.1).2 hk1m
    have hclosed : Permutation.apply p kv.1 ∈ sortNat (keysOf p.pmap) :=
      hclo kv.1 ((sortNat_perm _).symm.mem_iff.1 hk1p)
    have hk2 : kv.2 ∈ keysOf p.pmap := by
      have : Permutation.apply p kv.1 = kv.2 := by rw [happ kv.1]; exact ha
      rw [this] at hclosed
      exact (sortNat_perm _).mem_iff.1 hclosed
    exact (isCanon_moved_iff p hcan kv.2).1 hk2
  · intro kv1 h1 kv2 h2 hv
    have hl1 : lookup (strippedOf l) kv1.1 = some kv1.2 :=
      mem_lookup _ kv1.1 kv1.2 (strippedOf_keys_nodup l) h1
    have hl2 : lookup (strippedOf l) kv2.1 = some kv2.2 :=
      mem_lookup _ kv2.1 kv2.2 (strippedOf_keys_nodup l) h2
    have ha1 : Permutation.apply p kv1.1 = kv1.2 := by
      rw [happ kv1.1]
      unfold applyD
      rw [hl1]
      rfl
    have ha2 : Permutation.apply p kv2.1 = kv2.2 := by
      rw [happ kv2.1]
      unfold applyD
      rw [hl2]
      rfl
    apply hinj kv1.1 kv2.1
    rw [ha1, ha2, hv]

/-- Fixed points do not affect being a bijection on the support. -/
theorem bijOnSupport_of_stripped (m : List (Nat × Nat)) (hnd : (keysOf m).Nodup)
    (h : BijOnSupport (stripFixed m)) : BijOnSupport m := by
  obtain ⟨hclo, hinj⟩ := h
  have hfixed_applyD : ∀ kv ∈ m, kv.1 = kv.2 → applyD m kv.2 = kv.2 := by
    intro kv hkv hf
    have hl : lookup m kv.1 = some kv.2 := mem_lookup m kv.1 kv.2 hnd hkv
    rw [hf] at hl
    unfold applyD
    rw [hl]
    rfl
  constructor
  · intro kv hkv
    by_cases hf : kv.1 = kv.2
    · rw [← hf]
      exact List.mem_map_of_mem Prod.fst hkv
    · have hs : kv ∈ stripFixed m := (mem_stripFixed m kv).2 ⟨hkv, hf⟩
      have h2 := hclo kv hs
      rcases List.mem_map.1 h2 with ⟨kv2, hkv2, he⟩
      rw [← he]
      exact List.mem_map_of_mem Prod.fst ((mem_stripFixed m kv2).1 hkv2).1
  · intro kv1 h1 kv2 h2 hval
    by_cases hf1 : kv1.1 = kv1.2 <;> by_cases hf2 : kv2.1 = kv2.2
    · rw [hf1, hval, ← hf2]
    · exfalso
      have hm2 : kv2 ∈ stripFixed m := (mem_stripFixed m kv2).2 ⟨h2, hf2⟩
      have hcl2 : kv2.2 ∈ keysOf (stripFixed m) := hclo kv2 hm2
      apply (mem_keysOf_stripFixed m hnd kv2.2).1 hcl2
      rw [← hval]
      exact hfixed_applyD kv1 h1 hf1
    · exfalso
      have hm1 : kv1 ∈ stripFixed m := (mem_stripFixed m kv1).2 ⟨h1, hf1⟩
      have hcl1 : kv1.2 ∈ keysOf (stripFixed m) := hclo kv1 hm1
      apply (mem_keysOf_stripFixed m hnd kv1.2).1 hcl1
      rw [hval]
      exact hfixed_applyD kv2 h2 hf2
    · have hm1 : kv1 ∈ stripFixed m := (mem_stripFixed m kv1).2 ⟨h1, hf1⟩
      have hm2 : kv2 ∈ stripFixed m := (mem_stripFixed m kv2).2 ⟨h2, hf2⟩
      exact hinj kv1 hm1 kv2 hm2 hval

/-- C7: constructing a `Permutation` from any mapping that is not a bijection
on its support fails with the not-injective error and nothing else; in
particular `{1:2, 3:2}` is rejected this way. -/
theorem claim_C7_not_injective_rejected (l : List (Nat × Nat))
    (h : ¬ BijOnSupport (pyDict l)) :
    Permutation.new l = .error .notInjective ∧
    Permutation.new [(1, 2), (3, 2)] = .error .notInjective := by
  constructor
  · cases hn : Permutation.new l with
    | ok p =>
      exfalso
      apply h
      apply bijOnSupport_of_stripped (pyDict l) (pyDict_keys_nodup l)
      exact new_ok_bij_stripped l p hn
    | error e =>
      rw [new_error_eq l e hn]
  · rfl

theorem claim_C7_witness :
    ¬ BijOnSupport (pyDict [(1, 2), (3, 2)]) ∧
    Permutation.new [(1, 2), (3, 2)] = .error .notInjective :=
  ⟨by decide,
   (claim_C7_not_injective_rejected [(1, 2), (3, 2)] (by decide)).1⟩

/-! ## Order is the lcm of the orbit lengths -/

theorem foldlM_skip {α β : Type} (step : β → α → Except PermError β) (l : List α) :
    ∀ init : β, (∀ acc x, x ∈ l → step acc x = .ok acc) →
      l.foldlM step init = .ok init := by
  induction l with
  | nil => intro init _; rfl
  | cons a t ih =>
    intro init h
    rw [List.foldlM_cons, h init a (List.mem_cons_self a t)]
    exact ih init (fun acc x hx => h acc x (List.mem_cons_of_mem a hx))

theorem pow_order_eq_identity (p : Permutation) (hc : IsCanon p) :
    Permutation.pow p (p.order : Int) = .ok identityValue := by
  unfold Permutation.pow
  apply foldlM_skip
  intro acc c hcmem
  dsimp only
  have hdvd : c.length ∣ p.order := by
    rw [hc.order_eq, pyLcm_eq_foldl_lcm]
    exact dvd_foldl_lcm c.length _ (List.mem_map_of_mem List.length hcmem) 1
  have hmod : ((p.order : Int)) % (c.length : Int) = 0 := by
    rcases hdvd with ⟨t, ht⟩
    rw [ht]
    push_cast
    rw [Int.mul_emod_right]
  rw [if_pos hmod]

/-- C4: the stored order is the least common multiple of the orbit lengths
(`1` with no orbits); raising a permutation to its own order yields the
identity, and a permutation with orbit lengths `[2,3]` has order 6. -/
theorem claim_C4_order_lcm (p : Permutation) (h : Constructed p) :
    p.order = (p.orbitsL.map List.length).foldl Nat.lcm 1 ∧
    Permutation.pow p (p.order : Int) = .ok identityValue ∧
    (∃ q, Permutation.new [(1, 2), (2, 1), (3, 4), (4, 5), (5, 3)] = .ok q ∧
      q.orbitsL.map List.length = [2, 3] ∧ q.order = 6) := by
  have hc := constructed_isCanon p h
  refine ⟨?_, pow_order_eq_identity p hc, ?_⟩
  · rw [hc.order_eq, pyLcm_eq_foldl_lcm]
  · exact ⟨_, rfl, rfl, rfl⟩

theorem claim_C4_witness :
    (cycleValue [1, 2, 3]).order =
      ((cycleValue [1, 2, 3]).orbitsL.map List.length).foldl Nat.lcm 1 ∧
    Permutation.pow (cycleValue [1, 2, 3]) ((cycleValue [1, 2, 3]).order : Int) =
      .ok identityValue :=
  ⟨(claim_C4_order_lcm (cycleValue [1, 2, 3])
      (Constructed.ofCycle [1, 2, 3] _ rfl)).1,
   (claim_C4_order_lcm (cycleValue [1, 2, 3])
      (Constructed.ofCycle [1, 2, 3] _ rfl)).2.1⟩

/-! ## Splitting a cycle power (`Permutation.__pow__`, non-skip branch)

The splitting loop of `__pow__` walks the index set `0..n-1` with successor
`(index + exp % n) % n` — the same loop as the orbit decomposition — and
multiplies the element cycles read off along each index orbit into the
accumulator.  The lemmas below compute the orbit structure of the result. -/

theorem headD_mem (l : List Nat) (h : l ≠ []) : l.headD 0 ∈ l := by
  have h0 : 0 < l.length := List.length_pos.2 h
  rw [headD_eq_getElem_zero l h h0]
  exact List.getElem_mem h0

theorem getD_mem_of_lt (cl : List Nat) (i : Nat) (hi : i < cl.length) :
    cl.getD i 0 ∈ cl := by
  rw [List.getD_eq_getElem cl 0 hi]
  exact List.getElem_mem hi

theorem getD_inj_of_nodup (cl : List Nat) (hnd : cl.Nodup) (i j : Nat)
    (hi : i < cl.length) (hj : j < cl.length) (h : cl.getD i 0 = cl.getD j 0) :
    i = j := by
  rw [List.getD_eq_getElem cl 0 hi, List.getD_eq_getElem cl 0 hj] at h
  exact (List.Nodup.getElem_inj_iff hnd).1 h

/-- If stepping by `eN` modulo `n` returns to the start after `m` steps, the
modulus divides `m * eN`. -/
theorem mod_return_dvd (n x eN m : Nat) (hx : x < n)
    (h : (x + m * eN) % n = x) : n ∣ m * eN := by
  have h1 : x ≡ x + m * eN [MOD n] := by
    unfold Nat.ModEq
    rw [h, Nat.mod_eq_of_lt hx]
  have h2 := (Nat.modEq_iff_dvd' (Nat.le_add_right x (m * eN))).1 h1
  simpa using h2

/-- `n ∣ m * eN` forces the split-cycle length `n / gcd eN n` to divide `m`. -/
theorem subcycle_dvd (n eN m : Nat) (hd0 : 0 < Nat.gcd eN n)
    (hdvd : n ∣ m * eN) : n / Nat.gcd eN n ∣ m := by
  have hdn : Nat.gcd eN n ∣ n := Nat.gcd_dvd_right eN n
  have hde : Nat.gcd eN n ∣ eN := Nat.gcd_dvd_left eN n
  have hco : (eN / Nat.gcd eN n).Coprime (n / Nat.gcd eN n) :=
    Nat.coprime_div_gcd_div_gcd hd0
  have he : Nat.gcd eN n * (eN / Nat.gcd eN n) = eN := Nat.mul_div_cancel' hde
  have hn2 : Nat.gcd eN n * (n / Nat.gcd eN n) = n := Nat.mul_div_cancel' hdn
  have h0 : Nat.gcd eN n * (m * (eN / Nat.gcd eN n)) = m * eN := by
    calc Nat.gcd eN n * (m * (eN / Nat.gcd eN n))
        = m * (Nat.gcd eN n * (eN / Nat.gcd eN n)) := by ring
      _ = m * eN := by rw [he]
  have h1 : Nat.gcd eN n * (n / Nat.gcd eN n) ∣
      Nat.gcd eN n * (m * (eN / Nat.gcd eN n)) := by
    rw [h0, hn2]
    exact hdvd
  have h2 : n / Nat.gcd eN n ∣ m * (eN / Nat.gcd eN n) :=
    (Nat.mul_dvd_mul_iff_left hd0).1 h1
  exact Nat.Coprime.dvd_of_dvd_mul_right hco.symm h2

/-- Stepping `n / gcd eN n` times by `eN` modulo `n` returns to the start. -/
theorem mod_step_period (n x eN : Nat) (hx : x < n) :
    (x + n / Nat.gcd eN n * eN) % n = x := by
  have hdn : Nat.gcd eN n ∣ n := Nat.gcd_dvd_right eN n
  have hde : Nat.gcd eN n ∣ eN := Nat.gcd_dvd_left eN n
  have he : Nat.gcd eN n * (eN / Nat.gcd eN n) = eN := Nat.mul_div_cancel' hde
  have hn2 : n / Nat.gcd eN n * Nat.gcd eN n = n := Nat.div_mul_cancel hdn
  have h1 : n / Nat.gcd eN n * eN = n * (eN / Nat.gcd eN n) := by
    calc n / Nat.gcd eN n * eN
        = n / Nat.gcd eN n * (Nat.gcd eN n * (eN / Nat.gcd eN n)) := by rw [he]
      _ = n / Nat.gcd eN n * Nat.gcd eN n * (eN / Nat.gcd eN n) := by ring
      _ = n * (eN / Nat.gcd eN n) := by rw [hn2]
  rw [h1, Nat.add_mul_mod_self_left, Nat.mod_eq_of_lt hx]

/-- Iterating an apply function that rotates the stored cycle by `eN` lands on
`cl[(i + m * eN) % n]` after `m` steps. -/
theorem apply_iterate_on_cycle (r : Permutation) (cl : List Nat) (eN : Nat)
    (hn : 0 < cl.length)
    (hstep : ∀ i, i < cl.length →
      Permutation.apply r (cl.getD i 0) = cl.getD ((i + eN) % cl.length) 0) :
    ∀ (m i : Nat), i < cl.length →
      (Permutation.apply r)^[m] (cl.getD i 0) =
        cl.getD ((i + m * eN) % cl.length) 0 := by
  intro m
  induction m with
  | zero =>
    intro i hi
    simp [Nat.mod_eq_of_lt hi]
  | succ k ih =>
    intro i hi
    rw [Function.iterate_succ_apply', ih i hi,
      hstep ((i + k * eN) % cl.length) (Nat.mod_lt _ hn)]
    have h3 : (i + k * eN) % cl.length + eN ≡ i + k * eN + eN [MOD cl.length] :=
      Nat.ModEq.add_right eN (Nat.mod_modEq (i + k * eN) cl.length)
    have h4 : i + k * eN + eN = i + (k + 1) * eN := by ring
    have h2 : ((i + k * eN) % cl.length + eN) % cl.length =
        (i + (k + 1) * eN) % cl.length := by
      rw [← h4]
      exact h3
    rw [h2]


/-- The inner fold of `__pow__` over the split index orbits of one stored
cycle: each multiplication by an element cycle read off along an index orbit
succeeds, and after the whole fold every stored element has been advanced by
the stride while everything else stays fixed. -/
theorem pow_fold_invariant (cl : List Nat) (eN : Nat) (hncl : cl.Nodup) :
    ∀ (S : List (List Nat)) (acc : Permutation),
      (∀ co ∈ S, List.Chain' (stepR (fun i => (i + eN) % cl.length)) co ∧
        (co.getLastD 0 + eN) % cl.length = co.headD 0 ∧ co.Nodup ∧ 1 < co.length ∧
        (∀ i ∈ co, i < cl.length)) →
      S.flatten.Nodup →
      IsNewOutput acc →
      (∀ x, x ∉ cl → Permutation.apply acc x = x) →
      (∀ i, i < cl.length → i ∈ S.flatten →
        Permutation.apply acc (cl.getD i 0) = cl.getD i 0) →
      (∀ i, i < cl.length → i ∉ S.flatten →
        Permutation.apply acc (cl.getD i 0) = cl.getD ((i + eN) % cl.length) 0) →
      ∃ r, S.foldlM (fun (v : Permutation) (idxs : List Nat) =>
          if (idxs.map (fun i => cl.getD i 0)).length > 1 then
            v.mul (cycleValue (idxs.map (fun i => cl.getD i 0)))
          else .ok v) acc = .ok r ∧
        IsNewOutput r ∧
        (∀ x, x ∉ cl → Permutation.apply r x = x) ∧
        (∀ i, i < cl.length →
          Permutation.apply r (cl.getD i 0) = cl.getD ((i + eN) % cl.length) 0) := by
  intro S
  induction S with
  | nil =>
    intro acc _ _ hNew hOut _ hRot
    exact ⟨acc, rfl, hNew, hOut, fun i hi => hRot i hi (by simp)⟩
  | cons co S2 ih =>
    intro acc hS hflat hNew hOut hFix hRot
    rcases hS co (List.mem_cons_self co S2) with ⟨hch, hclose, hcnd, hclen, hcsub⟩
    have hcne : co ≠ [] := by
      intro hc
      rw [hc] at hclen
      simp at hclen
    have hn : 0 < cl.length := by
      have h0 := hcsub (co.headD 0) (headD_mem co hcne)
      omega
    set nc : List Nat := co.map (fun i => cl.getD i 0) with hncdef
    have hnclen : nc.length = co.length := by rw [hncdef, List.length_map]
    have hncnd : nc.Nodup := by
      rw [hncdef]
      exact hcnd.map_on
        (fun i hi j hj he => getD_inj_of_nodup cl hncl i j (hcsub i hi) (hcsub j hj) he)
    have hnclen1 : 1 < nc.length := by omega
    have hmemnc : ∀ i, i < cl.length → (cl.getD i 0 ∈ nc ↔ i ∈ co) := by
      intro i hi
      rw [hncdef]
      constructor
      · intro hmem
        rcases List.mem_map.1 hmem with ⟨j, hj, hje⟩
        have hji := getD_inj_of_nodup cl hncl j i (hcsub j hj) hi hje
        rw [hji] at hj
        exact hj
      · intro hic
        exact List.mem_map_of_mem _ hic
    have hncsubcl : ∀ x ∈ nc, x ∈ cl := by
      intro x hx
      rw [hncdef] at hx
      rcases List.mem_map.1 hx with ⟨j, hj, hje⟩
      rw [← hje]
      exact getD_mem_of_lt cl j (hcsub j hj)
    have hcycstep : ∀ i, i < cl.length → i ∈ co →
        Permutation.apply (cycleValue nc) (cl.getD i 0) =
          cl.getD ((i + eN) % cl.length) 0 := by
      intro i hi hic
      rcases List.mem_iff_getElem.1 hic with ⟨t, ht, hte⟩
      have htnc : t < nc.length := by omega
      have htm : t < (co.map (fun i => cl.getD i 0)).length := by
        rw [List.length_map]
        omega
      have hv : nc[t] = cl.getD i 0 := by
        show (co.map (fun i => cl.getD i 0))[t] = cl.getD i 0
        rw [List.getElem_map, hte]
      rw [← hv]
      unfold Permutation.apply
      rw [cycleValue_step nc hncnd t htnc]
      by_cases h2 : t + 1 < nc.length
      · rw [if_pos h2]
        have ht1 : t + 1 < co.length := by omega
        rw [List.getElem?_eq_getElem h2, Option.getD_some]
        have ht1m : t + 1 < (co.map (fun i => cl.getD i 0)).length := by
          rw [List.length_map]
          omega
        have hv2 : nc[t + 1] = cl.getD (co[t + 1]) 0 := by
          show (co.map (fun i => cl.getD i 0))[t + 1] = cl.getD (co[t + 1]) 0
          rw [List.getElem_map]
        rw [hv2]
        have hchain := List.chain'_iff_get.1 hch t (by omega)
        unfold stepR at hchain
        simp only [List.get_eq_getElem] at hchain
        rw [← hchain, hte]
      · rw [if_neg h2]
        have hncne : nc ≠ [] := by
          intro hc0
          rw [hc0] at htnc
          simp at htnc
        have h7 : 0 < co.length := by omega
        have hlastc : co.getLastD 0 = co[t] := by
          rw [getLastD_eq_getElem_last co hcne (by omega)]
          have h5 : co.length - 1 = t := by omega
          simp only [h5]
        have hh1 : nc.headD 0 = cl.getD (co.headD 0) 0 := by
          rw [headD_eq_getElem_zero nc hncne (by omega),
            headD_eq_getElem_zero co hcne h7]
          have h0m : 0 < (co.map (fun i => cl.getD i 0)).length := by
            rw [List.length_map]
            omega
          show (co.map (fun i => cl.getD i 0))[0] = cl.getD (co[0]) 0
          rw [List.getElem_map]
        rw [hh1, ← hclose, hlastc, hte]
    rcases mul_ok_general acc (cycleValue nc) (isNewOutput_isCanon acc hNew)
      (cycleValue_keys_nodup nc hncnd) (cycleValue_apply_inj nc hncnd hnclen1)
      with ⟨acc2, hmul, happ2, _⟩
    have hNew2 : IsNewOutput acc2 := mul_ok_isNewOutput _ _ _ hmul
    have hflat2 : S2.flatten.Nodup := by
      rw [List.flatten_cons] at hflat
      exact (List.nodup_append.1 hflat).2.1
    have hdisj : ∀ i ∈ co, i ∉ S2.flatten := by
      rw [List.flatten_cons] at hflat
      exact fun i hi hj => (List.nodup_append.1 hflat).2.2 hi hj
    have hOut2 : ∀ x, x ∉ cl → Permutation.apply acc2 x = x := by
      intro x hx
      rw [happ2 x, cycleValue_apply_not_mem nc x (fun hmem => hx (hncsubcl x hmem))]
      exact hOut x hx
    have hFix2 : ∀ i, i < cl.length → i ∈ S2.flatten →
        Permutation.apply acc2 (cl.getD i 0) = cl.getD i 0 := by
      intro i hi hiS
      have hic : i ∉ co := fun hic => hdisj i hic hiS
      rw [happ2, cycleValue_apply_not_mem nc _ (fun hmem => hic ((hmemnc i hi).1 hmem))]
      exact hFix i hi (by rw [List.flatten_cons]; exact List.mem_append_right co hiS)
    have hRot2 : ∀ i, i < cl.length → i ∉ S2.flatten →
        Permutation.apply acc2 (cl.getD i 0) = cl.getD ((i + eN) % cl.length) 0 := by
      intro i hi hiS
      by_cases hic : i ∈ co
      · rw [happ2, hcycstep i hi hic]
        have hgin : (i + eN) % cl.length ∈ co :=
          closedChain_image _ co hch hclose i hic
        have hgi : (i + eN) % cl.length < cl.length := Nat.mod_lt _ hn
        exact hFix _ hgi (by rw [List.flatten_cons]; exact List.mem_append_left _ hgin)
      · rw [happ2, cycleValue_apply_not_mem nc _ (fun hmem => hic ((hmemnc i hi).1 hmem))]
        exact hRot i hi (by
          rw [List.flatten_cons]
          intro hmem
          rcases List.mem_append.1 hmem with h | h
          · exact hic h
          · exact hiS h)
    rcases ih acc2 (fun c2 hc2 => hS c2 (List.mem_cons_of_mem co hc2)) hflat2 hNew2
      hOut2 hFix2 hRot2 with ⟨r, hfold, hrNew, hrOut, hrRot⟩
    refine ⟨r, ?_, hrNew, hrOut, hrRot⟩
    rw [List.foldlM_cons]
    rw [← hncdef, if_pos hnclen1, hmul]
    exact hfold

/-- A canonical value whose apply function rotates a nodup cycle of length
`n` by a stride `eN` with `0 < eN < n` decomposes into exactly `gcd eN n`
orbits of length `n / gcd eN n` each. -/
theorem orbits_uniform_length (r : Permutation) (cl : List Nat) (eN : Nat)
    (hrc : IsCanon r) (hncl : cl.Nodup) (hn1 : 1 < cl.length)
    (heN0 : 0 < eN) (heNn : eN < cl.length)
    (hrOut : ∀ x, x ∉ cl → Permutation.apply r x = x)
    (hrRot : ∀ i, i < cl.length →
      Permutation.apply r (cl.getD i 0) = cl.getD ((i + eN) % cl.length) 0) :
    r.orbitsL.length = Nat.gcd eN cl.length ∧
    ∀ o ∈ r.orbitsL, o.length = cl.length / Nat.gcd eN cl.length := by
  have hn : 0 < cl.length := by omega
  have hd0 : 0 < Nat.gcd eN cl.length := Nat.gcd_pos_of_pos_right eN hn
  have hdn : Nat.gcd eN cl.length ∣ cl.length := Nat.gcd_dvd_right eN cl.length
  have hnd0 : 0 < cl.length / Nat.gcd eN cl.length :=
    Nat.div_pos (Nat.le_of_dvd hn hdn) hd0
  have hkeys : ∀ k, k ∈ keysOf r.pmap ↔ k ∈ cl := by
    intro k
    rw [isCanon_moved_iff r hrc k]
    constructor
    · intro hne
      by_contra hk
      exact hne (hrOut k hk)
    · intro hk
      rcases List.mem_iff_getElem.1 hk with ⟨i, hi, hie⟩
      have hgd : cl.getD i 0 = k := by rw [List.getD_eq_getElem cl 0 hi, hie]
      rw [← hgd, hrRot i hi]
      intro heq
      have hmod : (i + eN) % cl.length = i :=
        getD_inj_of_nodup cl hncl _ i (Nat.mod_lt _ hn) hi heq
      have hdvd : cl.length ∣ 1 * eN :=
        mod_return_dvd cl.length i eN 1 hi (by rw [one_mul]; exact hmod)
      rw [one_mul] at hdvd
      have := Nat.le_of_dvd heN0 hdvd
      omega
  have hkperm : (keysOf r.pmap).Perm cl :=
    (List.perm_ext_iff_of_nodup hrc.keys_nodup hncl).2 hkeys
  have hiter := apply_iterate_on_cycle r cl eN hn hrRot
  have hfacts := hrc.facts
  have horblen : ∀ o ∈ r.orbitsL, o.length = cl.length / Nat.gcd eN cl.length := by
    intro o ho
    have hch := hfacts.chains o ho
    have hclose := hfacts.closing o ho
    have hond := hfacts.nodups o ho
    have holen := hfacts.lens o ho
    have hone : o ≠ [] := by
      intro hc
      rw [hc] at holen
      simp at holen
    have hh0 : o.headD 0 ∈ cl := by
      have h1 : o.headD 0 ∈ o := headD_mem o hone
      have h2 : o.headD 0 ∈ r.orbitsL.flatten := List.mem_flatten.2 ⟨o, ho, h1⟩
      have h3 := hfacts.flat_perm.mem_iff.1 h2
      have h4 := (sortNat_perm _).mem_iff.1 h3
      exact (hkeys _).1 h4
    rcases List.mem_iff_getElem.1 hh0 with ⟨i0, hi0, hi0e⟩
    have hgd0 : cl.getD i0 0 = o.headD 0 := by rw [List.getD_eq_getElem cl 0 hi0, hi0e]
    have hper := chain_iterate_period (Permutation.apply r) o hch hclose hone
    rw [← hgd0, hiter o.length i0 hi0] at hper
    have hmod : (i0 + o.length * eN) % cl.length = i0 :=
      getD_inj_of_nodup cl hncl _ i0 (Nat.mod_lt _ hn) hi0 hper
    have hdvd : cl.length / Nat.gcd eN cl.length ∣ o.length :=
      subcycle_dvd cl.length eN o.length hd0
        (mod_return_dvd cl.length i0 eN o.length hi0 hmod)
    have hub : o.length ≤ cl.length / Nat.gcd eN cl.length := by
      by_contra hcon
      push_neg at hcon
      have hlt : cl.length / Nat.gcd eN cl.length < o.length := hcon
      have h1 : o[cl.length / Nat.gcd eN cl.length] =
          (Permutation.apply r)^[cl.length / Nat.gcd eN cl.length] (o.headD 0) :=
        chain_getElem_iterate (Permutation.apply r) o hch _ hlt
      rw [← hgd0, hiter (cl.length / Nat.gcd eN cl.length) i0 hi0,
        mod_step_period cl.length i0 eN hi0, hgd0] at h1
      have h0lt : 0 < o.length := by omega
      have h2 : o.headD 0 = o[0] := headD_eq_getElem_zero o hone h0lt
      rw [h2] at h1
      have h3 := (List.Nodup.getElem_inj_iff hond).1 h1
      omega
    have hlb : cl.length / Nat.gcd eN cl.length ≤ o.length := Nat.le_of_dvd (by omega) hdvd
    omega
  have hflatlen : r.orbitsL.flatten.length = cl.length := by
    rw [hfacts.flat_perm.length_eq, (sortNat_perm _).length_eq, hkperm.length_eq]
  have hmapconst : r.orbitsL.map List.length =
      List.replicate r.orbitsL.length (cl.length / Nat.gcd eN cl.length) := by
    rw [List.eq_replicate_iff]
    constructor
    · rw [List.length_map]
    · intro b hb
      rcases List.mem_map.1 hb with ⟨o, ho, hoe⟩
      rw [← hoe]
      exact horblen o ho
  have hcount : r.orbitsL.length * (cl.length / Nat.gcd eN cl.length) = cl.length := by
    have h1 : (r.orbitsL.map List.length).sum = cl.length := by
      rw [← List.length_flatten]
      exact hflatlen
    rw [hmapconst, List.sum_replicate, smul_eq_mul] at h1
    exact h1
  have hdn2 : Nat.gcd eN cl.length * (cl.length / Nat.gcd eN cl.length) = cl.length :=
    Nat.mul_div_cancel' hdn
  refine ⟨?_, horblen⟩
  apply Nat.eq_of_mul_eq_mul_right hnd0
  rw [hcount, hdn2]

/-- C5: raising a single stored cycle of length `n` to an integer exponent
`e` whose Python remainder `e % n` is nonzero and shares a factor
`d = gcd(e % n, n) > 1` with `n` splits the cycle: the power decomposes into
exactly `d` pairwise disjoint orbits of length `n / d` each (when `e % n == 0`
the skip branch of `__pow__` yields the identity instead).  In particular the
4-cycle `(0,1,2,3)` squared is the product of the two disjoint transpositions
`(0,2)` and `(1,3)`. -/
theorem claim_C5_split_power (p : Permutation) (cl : List Nat) (e : Int) (d : Nat)
    (hp : Constructed p) (horb : p.orbitsL = [cl])
    (hmod : e % (cl.length : Int) ≠ 0)
    (hd : d = Nat.gcd (e % (cl.length : Int)).toNat cl.length) (hd1 : 1 < d) :
    (∃ r, Permutation.pow p e = .ok r ∧
      r.orbitsL.length = d ∧
      (∀ o ∈ r.orbitsL, o.length = cl.length / d) ∧
      (∀ o1 ∈ r.orbitsL, ∀ o2 ∈ r.orbitsL, o1 ≠ o2 → List.Disjoint o1 o2)) ∧
    (Permutation.cycle [0, 1, 2, 3] = .ok (cycleValue [0, 1, 2, 3]) ∧
      ∃ r2, Permutation.pow (cycleValue [0, 1, 2, 3]) 2 = .ok r2 ∧
        r2.orbitsL = [[0, 2], [1, 3]]) := by
  constructor
  · have hc := constructed_isCanon p hp
    have hclmem : cl ∈ p.orbitsL := by
      rw [horb]
      exact List.mem_cons_self cl []
    have hncl : cl.Nodup := hc.facts.nodups cl hclmem
    have hlen1 : 1 < cl.length := hc.facts.lens cl hclmem
    have hn : 0 < cl.length := by omega
    have hnz : (cl.length : Int) ≠ 0 := by
      intro hcon
      have := Int.natCast_eq_zero.mp hcon
      omega
    have hemod_nonneg : 0 ≤ e % (cl.length : Int) := Int.emod_nonneg e hnz
    have hemod_lt : e % (cl.length : Int) < (cl.length : Int) :=
      Int.emod_lt_of_pos e (by exact_mod_cast hn)
    have heN0 : 0 < (e % (cl.length : Int)).toNat := by omega
    have heNn : (e % (cl.length : Int)).toNat < cl.length := by omega
    have hg_inj : ∀ x ∈ List.range cl.length, ∀ y ∈ List.range cl.length,
        (x + (e % (cl.length : Int)).toNat) % cl.length =
          (y + (e % (cl.length : Int)).toNat) % cl.length → x = y := by
      intro x hx y hy he
      rw [List.mem_range] at hx hy
      have h1 : x % cl.length = y % cl.length :=
        Nat.ModEq.add_right_cancel' ((e % (cl.length : Int)).toNat) he
      rw [Nat.mod_eq_of_lt hx, Nat.mod_eq_of_lt hy] at h1
      exact h1
    have hdec : ∃ L, decompose
        (fun i => (i + (e % (cl.length : Int)).toNat) % cl.length)
        (cl.length + 1) (List.range cl.length) = .ok L := by
      apply decompose_ok_of_inj
      · exact List.nodup_range cl.length
      · intro x _
        rw [List.mem_range]
        exact Nat.mod_lt _ hn
      · exact hg_inj
      · rw [List.length_range]
        omega
    rcases hdec with ⟨L, hL⟩
    have hmoved : ∀ x ∈ List.range cl.length,
        (fun i => (i + (e % (cl.length : Int)).toNat) % cl.length) x ≠ x := by
      intro x hx
      rw [List.mem_range] at hx
      intro hcon
      have hdvd : cl.length ∣ 1 * (e % (cl.length : Int)).toNat :=
        mod_return_dvd cl.length x ((e % (cl.length : Int)).toNat) 1 hx
          (by rw [one_mul]; exact hcon)
      rw [one_mul] at hdvd
      have := Nat.le_of_dvd heN0 hdvd
      omega
    have hLfacts : OrbitFacts
        (fun i => (i + (e % (cl.length : Int)).toNat) % cl.length)
        (List.range cl.length) L :=
      decompose_ok_facts _ _ _ _ (List.sorted_le_range cl.length)
        (List.nodup_range cl.length) hmoved hL
    have horbprops : ∀ c2 ∈ L,
        List.Chain' (stepR (fun i =>
          (i + (e % (cl.length : Int)).toNat) % cl.length)) c2 ∧
        (c2.getLastD 0 + (e % (cl.length : Int)).toNat) % cl.length = c2.headD 0 ∧
        c2.Nodup ∧ 1 < c2.length ∧ (∀ i ∈ c2, i < cl.length) := by
      intro c2 hc2
      refine ⟨hLfacts.chains c2 hc2, hLfacts.closing c2 hc2, hLfacts.nodups c2 hc2,
        hLfacts.lens c2 hc2, ?_⟩
      intro i hi
      have h1 : i ∈ L.flatten := List.mem_flatten.2 ⟨c2, hc2, hi⟩
      exact List.mem_range.1 (hLfacts.flat_perm.mem_iff.1 h1)
    have hLflatnd : L.flatten.Nodup :=
      hLfacts.flat_perm.symm.nodup (List.nodup_range _)
    rcases pow_fold_invariant cl ((e % (cl.length : Int)).toNat) hncl L identityValue
      horbprops hLflatnd ⟨[], new_nil_ok⟩
      (fun x _ => apply_identityValue x)
      (fun i _ _ => apply_identityValue _)
      (fun i hi hnotin =>
        absurd (hLfacts.flat_perm.mem_iff.2 (List.mem_range.2 hi)) hnotin)
      with ⟨r, hfold, hrNew, hrOut, hrRot⟩
    have hpow : Permutation.pow p e = .ok r := by
      unfold Permutation.pow
      rw [horb, List.foldlM_cons]
      rw [if_neg hmod]
      dsimp only
      rw [hL]
      dsimp only
      rw [hfold]
      rfl
    have hrc2 : IsCanon r := isNewOutput_isCanon r hrNew
    have hfinal := orbits_uniform_length r cl ((e % (cl.length : Int)).toNat)
      hrc2 hncl hlen1 heN0 heNn hrOut hrRot
    refine ⟨r, hpow, ?_, ?_, ?_⟩
    · rw [hd]
      exact hfinal.1
    · intro o ho
      rw [hd]
      exact hfinal.2 o ho
    · have hflatnd : r.orbitsL.flatten.Nodup :=
        hrc2.facts.flat_perm.symm.nodup (sortNat_nodup _ hrc2.keys_nodup)
      rcases List.nodup_flatten.1 hflatnd with ⟨_, hpair⟩
      intro o1 h1 o2 h2 hne12
      exact List.Pairwise.forall (fun a b h => h.symm) hpair h1 h2 hne12
  · exact ⟨rfl, ⟨[(0, 2), (2, 0), (1, 3), (3, 1)], [[0, 2], [1, 3]], 2⟩, rfl, rfl⟩

theorem claim_C5_witness :
    Constructed (cycleValue [0, 1, 2, 3]) ∧
    (cycleValue [0, 1, 2, 3]).orbitsL = [[0, 1, 2, 3]] ∧
    (2 : Int) % (([0, 1, 2, 3] : List Nat).length : Int) ≠ 0 ∧
    (2 : Nat) = Nat.gcd ((2 : Int) % (([0, 1, 2, 3] : List Nat).length : Int)).toNat
      ([0, 1, 2, 3] : List Nat).length ∧ 1 < 2 ∧
    ∃ r, Permutation.pow (cycleValue [0, 1, 2, 3]) 2 = .ok r ∧
      r.orbitsL.length = 2 ∧ ∀ o ∈ r.orbitsL, o.length = 2 := by
  have hcon : Constructed (cycleValue [0, 1, 2, 3]) :=
    Constructed.ofCycle [0, 1, 2, 3] _ rfl
  have h := claim_C5_split_power (cycleValue [0, 1, 2, 3]) [0, 1, 2, 3] 2 2 hcon rfl
    (by decide) (by decide) (by decide)
  rcases h.1 with ⟨r, hr, hlen, holen, _⟩
  exact ⟨hcon, rfl, by decide, by decide, by decide, r, hr, hlen, holen⟩
